import Mathlib

/-!
# structlog: flattening a record into a map of dotted labels

A shallow embedding of `enter.go` (`LogStructFields`, `LogStruct`) and the
properties of it that the specification states.

Modelling decisions
* A Go value handed to `reflect.ValueOf` is a finite tree (`Value`): the nil
  interface, a primitive, a nil pointer, a pointer to a value, or a struct with
  its fields in declaration order, a variable of interface type with the value
  it holds, or a slice that contains itself.  The code branches on the kind of
  the variable it looks at (`val.Field(i).Kind()`), which for a field declared
  with an interface type is `Interface` whatever the field holds.  Every kind
  other than pointer and struct is treated alike by the code (it is stored
  through `Interface()`), so the primitives stand for the remaining kinds.
* A field carries its declared name, the result of `Tag.Get("testlog")`
  (the empty string when the tag is absent) and whether it is exported, which is
  exactly when `CanInterface()` holds for a field reached from an interface value.
* A Go map is an association list with pairwise distinct keys; `m[k] = v`
  replaces the value of an existing key and appends a new key otherwise.  The
  `nil` map and the empty map made by `make` are kept apart.
* `range` over a map visits every entry once in an unspecified order.  The order
  is a parameter (`RangeOrder`): one permutation for every execution of a `range`
  statement, addressed by the position of that statement in the traversal.
* `fmt.Sprintf("%v", x)` is library code and is a parameter of `LogStruct`; in
  the checked rendering below it is a parameter that may fail, as the real one
  does on a value that contains itself.
* Absence of panics and termination are stated on a second rendering of the same
  code (`LogStructFieldsChecked`), in which every reflective step returns an
  error when its documented precondition fails and the number of nested
  recursive calls is bounded; it is proved to return what `LogStructFields`
  returns.
-/

namespace Structlog

/-! ## Data model -/

/-- Primitive Go values (the kinds that are neither pointer nor struct). -/
inductive Prim where
  | int (i : Int)
  | str (s : String)
  | bool (b : Bool)
  deriving DecidableEq, Repr

mutual
/-- A Go value as seen through `reflect`. `nil` is the nil interface (whose
`reflect.Value` is the zero Value); `nilPtr` is a typed nil pointer; `iface d`
is a variable of interface type holding `d`, which occurs as the value of a
field declared with an interface type or as the target of a pointer (never as
the result of `reflect.ValueOf`); `selfSlice` is the slice of `interface{}`
whose only element is the slice itself (`s := make([]interface{}, 1); s[0] = s`). -/
inductive Value where
  | nil
  | prim (p : Prim)
  | nilPtr
  | ptr (target : Value)
  | struct (fields : List Field)
  | iface (held : Value)
  | selfSlice
/-- A struct field: declared name, `Tag.Get("testlog")`, exportedness, value. -/
inductive Field where
  | mk (name : String) (tag : String) (exported : Bool) (value : Value)
end

mutual
/-- Decidable equality of values. -/
def Value.decEq : (a b : Value) → Decidable (a = b)
  | .nil, .nil => isTrue rfl
  | .prim p, .prim q =>
     if h : p = q then isTrue (by rw [h]) else isFalse (by intro e; cases e; exact h rfl)
  | .nilPtr, .nilPtr => isTrue rfl
  | .selfSlice, .selfSlice => isTrue rfl
  | .ptr a, .ptr b => match Value.decEq a b with
     | isTrue h => isTrue (by rw [h])
     | isFalse h => isFalse (by intro e; cases e; exact h rfl)
  | .iface a, .iface b => match Value.decEq a b with
     | isTrue h => isTrue (by rw [h])
     | isFalse h => isFalse (by intro e; cases e; exact h rfl)
  | .struct a, .struct b => match Value.decEqFields a b with
     | isTrue h => isTrue (by rw [h])
     | isFalse h => isFalse (by intro e; cases e; exact h rfl)
  | .nil, .prim _ => isFalse (by intro e; cases e)
  | .nil, .nilPtr => isFalse (by intro e; cases e)
  | .nil, .ptr _ => isFalse (by intro e; cases e)
  | .nil, .struct _ => isFalse (by intro e; cases e)
  | .nil, .iface _ => isFalse (by intro e; cases e)
  | .nil, .selfSlice => isFalse (by intro e; cases e)
  | .prim _, .nil => isFalse (by intro e; cases e)
  | .prim _, .nilPtr => isFalse (by intro e; cases e)
  | .prim _, .ptr _ => isFalse (by intro e; cases e)
  | .prim _, .struct _ => isFalse (by intro e; cases e)
  | .prim _, .iface _ => isFalse (by intro e; cases e)
  | .prim _, .selfSlice => isFalse (by intro e; cases e)
  | .nilPtr, .nil => isFalse (by intro e; cases e)
  | .nilPtr, .prim _ => isFalse (by intro e; cases e)
  | .nilPtr, .ptr _ => isFalse (by intro e; cases e)
  | .nilPtr, .struct _ => isFalse (by intro e; cases e)
  | .nilPtr, .iface _ => isFalse (by intro e; cases e)
  | .nilPtr, .selfSlice => isFalse (by intro e; cases e)
  | .ptr _, .nil => isFalse (by intro e; cases e)
  | .ptr _, .prim _ => isFalse (by intro e; cases e)
  | .ptr _, .nilPtr => isFalse (by intro e; cases e)
  | .ptr _, .struct _ => isFalse (by intro e; cases e)
  | .ptr _, .iface _ => isFalse (by intro e; cases e)
  | .ptr _, .selfSlice => isFalse (by intro e; cases e)
  | .struct _, .nil => isFalse (by intro e; cases e)
  | .struct _, .prim _ => isFalse (by intro e; cases e)
  | .struct _, .nilPtr => isFalse (by intro e; cases e)
  | .struct _, .ptr _ => isFalse (by intro e; cases e)
  | .struct _, .iface _ => isFalse (by intro e; cases e)
  | .struct _, .selfSlice => isFalse (by intro e; cases e)
  | .iface _, .nil => isFalse (by intro e; cases e)
  | .iface _, .prim _ => isFalse (by intro e; cases e)
  | .iface _, .nilPtr => isFalse (by intro e; cases e)
  | .iface _, .ptr _ => isFalse (by intro e; cases e)
  | .iface _, .struct _ => isFalse (by intro e; cases e)
  | .iface _, .selfSlice => isFalse (by intro e; cases e)
  | .selfSlice, .nil => isFalse (by intro e; cases e)
  | .selfSlice, .prim _ => isFalse (by intro e; cases e)
  | .selfSlice, .nilPtr => isFalse (by intro e; cases e)
  | .selfSlice, .ptr _ => isFalse (by intro e; cases e)
  | .selfSlice, .struct _ => isFalse (by intro e; cases e)
  | .selfSlice, .iface _ => isFalse (by intro e; cases e)
/-- Decidable equality of fields. -/
def Value.decEqField : (a b : Field) → Decidable (a = b)
  | ⟨n1, t1, e1, v1⟩, ⟨n2, t2, e2, v2⟩ =>
    if hn : n1 = n2 then
      if ht : t1 = t2 then
        if he : e1 = e2 then
          match Value.decEq v1 v2 with
          | isTrue h => isTrue (by rw [hn, ht, he, h])
          | isFalse h => isFalse (by intro e; cases e; exact h rfl)
        else isFalse (by intro e; cases e; exact he rfl)
      else isFalse (by intro e; cases e; exact ht rfl)
    else isFalse (by intro e; cases e; exact hn rfl)
/-- Decidable equality of field lists. -/
def Value.decEqFields : (a b : List Field) → Decidable (a = b)
  | [], [] => isTrue rfl
  | [], _ :: _ => isFalse (by intro e; cases e)
  | _ :: _, [] => isFalse (by intro e; cases e)
  | x :: xs, y :: ys => match Value.decEqField x y with
     | isTrue h => match Value.decEqFields xs ys with
        | isTrue h2 => isTrue (by rw [h, h2])
        | isFalse h2 => isFalse (by intro e; cases e; exact h2 rfl)
     | isFalse h => isFalse (by intro e; cases e; exact h rfl)
end

instance : DecidableEq Value :=
  Value.decEq

instance : DecidableEq Field :=
  Value.decEqField

/-- Declared name of the field (`field.Name`). -/
def Field.name : Field → String
  | ⟨n, _, _, _⟩ => n

/-- Result of `field.Tag.Get("testlog")`. -/
def Field.tag : Field → String
  | ⟨_, t, _, _⟩ => t

/-- Whether `fieldValue.CanInterface()` holds, that is, the field is exported. -/
def Field.exported : Field → Bool
  | ⟨_, _, e, _⟩ => e

/-- Value held by the field (`val.Field(i)`). -/
def Field.value : Field → Value
  | ⟨_, _, _, v⟩ => v

/-- The kinds of `reflect.Kind` that the model distinguishes. -/
inductive Kind where
  | Invalid
  | Bool
  | Int
  | String
  | Ptr
  | Struct
  | Interface
  | Slice
  deriving DecidableEq, Repr

/-- Model of `reflect.Value.Kind`: the kind of the variable looked at. For a
field it is the kind of the field's declared type, so `Interface` for a field
declared with an interface type, whatever it holds. -/
def Value.Kind : Value → Kind
  | .nil => .Invalid
  | .prim (.int _) => .Int
  | .prim (.str _) => .String
  | .prim (.bool _) => .Bool
  | .nilPtr => .Ptr
  | .ptr _ => .Ptr
  | .struct _ => .Struct
  | .iface _ => .Interface
  | .selfSlice => .Slice

/-- Model of `reflect.Value.IsNil` on a pointer. -/
def Value.IsNil : Value → Bool
  | .nilPtr => true
  | _ => false

/-- Model of `reflect.Value.Elem` on a pointer: the target, or the zero Value for
a nil pointer. (Not called on other kinds; they are returned unchanged.) -/
def Value.Elem : Value → Value
  | .nilPtr => .nil
  | .ptr t => t
  | v => v

/-- Model of `reflect.Value.Interface`: the value as an `interface{}`. For a
variable of interface type that is the value it holds. -/
def Value.Interface : Value → Value
  | .iface d => d
  | v => v

/-- Fields of a struct value (`val.Field(i)` for `i < val.NumField()`). -/
def Value.fields : Value → List Field
  | .struct fs => fs
  | _ => []

/-! ## Go maps -/

/-- The entries of a `map[string]interface{}`. -/
abbrev Entries := List (String × Value)

/-- Map assignment `m[k] = v`. -/
def Entries.set : Entries → String → Value → Entries
  | [], k, v => [(k, v)]
  | (k', v') :: rest, k, v =>
      if k' = k then (k, v) :: rest else (k', v') :: Entries.set rest k v

/-- Map lookup `m[k]` with presence. -/
def Entries.get? : Entries → String → Option Value
  | [], _ => none
  | (k', v') :: rest, k => if k' = k then some v' else Entries.get? rest k

/-- The keys of a map. -/
def Entries.keys (es : Entries) : List String :=
  es.map Prod.fst

/-- A `map[string]interface{}` value: the nil map or a map made by `make`. -/
inductive GoMap where
  | nilMap
  | made (entries : Entries)

instance : DecidableEq GoMap := fun a b =>
  match a, b with
  | .nilMap, .nilMap => isTrue rfl
  | .made x, .made y =>
      if h : x = y then isTrue (by rw [h]) else isFalse (by intro e; cases e; exact h rfl)
  | .nilMap, .made _ => isFalse (by intro e; cases e)
  | .made _, .nilMap => isFalse (by intro e; cases e)

/-- The entries of a map; the nil map has none. -/
def GoMap.entries : GoMap → Entries
  | .nilMap => []
  | .made es => es

/-- Go `len(m)`. -/
def GoMap.len (m : GoMap) : Nat :=
  m.entries.length

/-- An iteration order for every `range` over a map executed during one call:
`order pos es` is the order in which the `range` at position `pos` visits the
entries `es`. Position `[]` is the loop of `LogStruct`; position `[i]` is the
merge loop for field `i` of the top-level record, `[i, j]` the one for field `j`
of the record held by field `i`, and so on. -/
structure RangeOrder where
  order : List Nat → Entries → Entries
  perm : ∀ pos es, (order pos es).Perm es

/-- The iteration orders seen by the recursive call made for field `i`. -/
def RangeOrder.sub (ord : RangeOrder) (i : Nat) : RangeOrder :=
  ⟨fun pos => ord.order (i :: pos), fun pos es => ord.perm (i :: pos) es⟩

/-- Iteration in insertion order. -/
def RangeOrder.insertion : RangeOrder :=
  ⟨fun _ es => es, fun _ _ => List.Perm.refl _⟩

/-- Iteration in reverse insertion order. -/
def RangeOrder.reversed : RangeOrder :=
  ⟨fun _ es => es.reverse, fun _ es => List.reverse_perm es⟩

/-! ## The program -/

mutual
/-- Model of `LogStructFields` (enter.go, lines 22-72). The argument is the
variable that `val` reflects on after `reflect.ValueOf`. The pointer case is the
single `val.Elem()` of lines 24-26; everything that is not a struct after it,
a variable of interface type included, returns the nil map (lines 28-30). -/
def LogStructFields (ord : RangeOrder) : Value → GoMap
  | .ptr (.struct fs) => .made (fieldsLoop ord 0 fs [])
  | .struct fs => .made (fieldsLoop ord 0 fs [])
  | _ => .nilMap
/-- The loop over the fields of lines 35-69, from field `i` on, with the fields
still to be visited and the map built so far. The tests of lines 51 and 60 are
on the kind of the field, and what is stored is what `Interface()` returns. -/
def fieldsLoop (ord : RangeOrder) : Nat → List Field → Entries → Entries
  | _, [], result => result
  | i, ⟨name, tag, exported, value⟩ :: rest, result =>
      let tag := if tag = "" then name else tag
      if !exported then fieldsLoop ord (i + 1) rest result
      else if value.Kind = .Struct then
        let nested := LogStructFields (ord.sub i) value
        let result := (ord.order [i] nested.entries).foldl
          (fun r kv => r.set (tag ++ "." ++ kv.1) kv.2) result
        fieldsLoop ord (i + 1) rest result
      else if value.Kind = .Ptr then
        if value.IsNil then fieldsLoop ord (i + 1) rest (result.set tag .nil)
        else fieldsLoop ord (i + 1) rest (result.set tag value.Elem.Interface)
      else fieldsLoop ord (i + 1) rest (result.set tag value.Interface)
end

/-- Model of `LogStruct` (enter.go, lines 82-94); `sprintv` is
`fmt.Sprintf("%v", ·)` and the builder is the string written so far. -/
def LogStruct (sprintv : Value → String) (ord : RangeOrder) (v : Value) : String :=
  let fields := LogStructFields ord v
  (ord.order [] fields.entries).foldl
    (fun sb kv => sb ++ kv.1 ++ ": " ++ sprintv kv.2 ++ "\n") ""

/-! ## Notions used to state the properties -/

/-- The resolved label of a field: its tag when non-empty, else its name. -/
def Field.label (f : Field) : String :=
  if f.tag = "" then f.name else f.tag

/-- The value stored for a field whose kind is not struct. For a field of
pointer type: nil for a null reference, the target for a non-null reference.
For any other field: what the field holds, as it is; in particular a record or
a reference held in a field of interface type is stored whole. -/
def Value.emitted (v : Value) : Value :=
  if v.Kind = .Ptr then (if v.IsNil then .nil else v.Elem.Interface) else v.Interface

/-- A leaf value: what the field holds (directly or in an interface) is neither
a record nor a reference to a record. -/
def Value.IsLeaf (v : Value) : Prop :=
  v.Interface.Kind ≠ .Struct
    ∧ ¬ (v.Interface.Kind = .Ptr ∧ v.Interface.Elem.Interface.Kind = .Struct)

instance (v : Value) : Decidable v.IsLeaf :=
  inferInstanceAs (Decidable (v.Interface.Kind ≠ .Struct
    ∧ ¬ (v.Interface.Kind = .Ptr ∧ v.Interface.Elem.Interface.Kind = .Struct)))

/-- A dotted path: the labels joined with ".". -/
def dotted : List String → String
  | [] => ""
  | [l] => l
  | l :: ls => l ++ "." ++ dotted ls

/-- `FieldAt fs path v`: starting from a record with fields `fs` and following
the resolved labels in `path` through accessible fields of record type only, one
reaches an accessible field whose variable is `v`. -/
inductive FieldAt : List Field → List String → Value → Prop where
  | here (fs : List Field) (f : Field) :
      f ∈ fs → f.exported = true → FieldAt fs [f.label] f.value
  | inside (fs : List Field) (f : Field) (sub : List Field) (l : String)
      (path : List String) (v : Value) :
      f ∈ fs → f.exported = true → f.value = .struct sub →
      FieldAt sub (l :: path) v → FieldAt fs (f.label :: l :: path) v

mutual
/-- The accessible fields of a record whose kind is not record, in declaration
order (depth first), each with its dotted path from the root and its emitted
value. A field of interface type is one of them whatever it holds. -/
def emittedFields : List Field → Entries
  | [] => []
  | ⟨name, tag, exported, value⟩ :: rest =>
      (if exported then emittedUnder (if tag = "" then name else tag) value else [])
        ++ emittedFields rest
/-- What one accessible field with resolved label `label` contributes. -/
def emittedUnder (label : String) : Value → Entries
  | .struct sub => (emittedFields sub).map (fun kv => (label ++ "." ++ kv.1, kv.2))
  | v => [(label, v.emitted)]
end

/-- The value of the last entry with key `k` in a list of writes. -/
def lastWrite : Entries → String → Option Value
  | [], _ => none
  | (k', v') :: rest, k =>
      (lastWrite rest k).or (if k' = k then some v' else none)

/-- Performing a list of map assignments in order. -/
def applyWrites (ws : Entries) (result : Entries) : Entries :=
  ws.foldl (fun r kv => r.set kv.1 kv.2) result

/-- Prefixing the keys of a nested result with the label of the enclosing field. -/
def underLabel (label : String) (es : Entries) : Entries :=
  es.map (fun kv => (label ++ "." ++ kv.1, kv.2))

/-! ## Example inputs -/

/-- Example record: ID (tag "id") = 7, Name = "a", and an unexported count = 9. -/
def examplePrimitive : List Field :=
  [⟨"ID", "id", true, .prim (.int 7)⟩, ⟨"Name", "", true, .prim (.str "a")⟩,
   ⟨"count", "", false, .prim (.int 9)⟩]

/-- A stand-in for the default formatting of values, for evaluating examples. -/
def exampleSprintv : Value → String
  | .nil => "<nil>"
  | .prim (.int i) => toString i
  | .prim (.str s) => s
  | .prim (.bool b) => toString b
  | _ => "?"

/-- Two exported primitive fields A = 1 and B = 2, both tagged "x". -/
def exampleClash : List Field :=
  [⟨"A", "x", true, .prim (.int 1)⟩, ⟨"B", "x", true, .prim (.int 2)⟩]

/-- Three exported primitive fields A = 1, B = 2 and C = 3, all tagged "x". -/
def exampleTripleClash : List Field :=
  [⟨"A", "x", true, .prim (.int 1)⟩, ⟨"B", "x", true, .prim (.int 2)⟩,
   ⟨"C", "x", true, .prim (.int 3)⟩]

/-- An exported primitive field A = 1 tagged "x", followed by an exported record
field B tagged "x" whose only field is Y = 2. -/
def exampleRecordClash : List Field :=
  [⟨"A", "x", true, .prim (.int 1)⟩,
   ⟨"B", "x", true, .struct [⟨"Y", "", true, .prim (.int 2)⟩]⟩]

/-- An exported field P holding a reference to the number 5 and an exported
field Q holding a null reference. -/
def exampleReferences : List Field :=
  [⟨"P", "", true, .ptr (.prim (.int 5))⟩, ⟨"Q", "", true, .nilPtr⟩]

/-- An exported record field Inner holding an exported X = 3 and an unexported
y = 4, followed by an exported field P holding a reference to the number 5. -/
def exampleNested : List Field :=
  [⟨"Inner", "", true,
      .struct [⟨"X", "", true, .prim (.int 3)⟩, ⟨"y", "", false, .prim (.int 4)⟩]⟩,
   ⟨"P", "p", true, .ptr (.prim (.int 5))⟩]

/-- An exported record field P with exported sub-fields labelled "a" = 1 and
"b" = 2, followed by an exported primitive field Q = 5 tagged "P". -/
def exampleParentClash : List Field :=
  [⟨"P", "", true,
      .struct [⟨"A", "a", true, .prim (.int 1)⟩, ⟨"B", "b", true, .prim (.int 2)⟩]⟩,
   ⟨"Q", "P", true, .prim (.int 5)⟩]

/-- An exported record field P whose exported sub-field labelled "a" is itself
a record (with one field X = 1) and whose exported sub-field "b" is 2. -/
def exampleDeep : List Field :=
  [⟨"P", "", true,
      .struct [⟨"A", "a", true, .struct [⟨"X", "", true, .prim (.int 1)⟩]⟩,
               ⟨"B", "b", true, .prim (.int 2)⟩]⟩]

/-- An exported field N = 1, an unexported record field hidden with an exported
sub-field X = 2, and an exported record field Empty whose only field is
unexported. -/
def exampleHidden : List Field :=
  [⟨"N", "", true, .prim (.int 1)⟩,
   ⟨"hidden", "", false, .struct [⟨"X", "", true, .prim (.int 2)⟩]⟩,
   ⟨"Empty", "", true, .struct [⟨"z", "", false, .prim (.int 3)⟩]⟩]

mutual
/-- A record with the unexported fields removed, at the top level and inside
every record held by an exported field. -/
def accessibleFields : List Field → List Field
  | [] => []
  | ⟨name, tag, exported, value⟩ :: rest =>
      if exported then ⟨name, tag, exported, accessibleValue value⟩ :: accessibleFields rest
      else accessibleFields rest
/-- The same removal inside a record value; other values are left alone. -/
def accessibleValue : Value → Value
  | .struct sub => .struct (accessibleFields sub)
  | v => v
end

/-- The record of the specification's example: ID (tag "id") = 7, Name = "a" and
Inner, a record with the single field X = 3; all fields exported. -/
def exampleSpec : List Field :=
  [⟨"ID", "id", true, .prim (.int 7)⟩, ⟨"Name", "", true, .prim (.str "a")⟩,
   ⟨"Inner", "", true, .struct [⟨"X", "", true, .prim (.int 3)⟩]⟩]

/-- An exported field RR holding a reference to a reference to the number 5, and
an exported field RS holding a reference to a record with the field X = 1. -/
def exampleTargets : List Field :=
  [⟨"RR", "", true, .ptr (.ptr (.prim (.int 5)))⟩,
   ⟨"RS", "", true, .ptr (.struct [⟨"X", "", true, .prim (.int 1)⟩])⟩]

/-- At one record level: the resolved labels of the exported fields are pairwise
distinct and none of them contains the character '.'. -/
def levelLabelsOK (fs : List Field) : Bool :=
  decide (((fs.filter (fun f => f.exported)).map Field.label).Nodup)
    && (fs.filter (fun f => f.exported)).all (fun f => decide ('.' ∉ f.label.data))

mutual
/-- The records held by exported fields satisfy `levelLabelsOK`, at every depth. -/
def nestedLabelsOK : List Field → Bool
  | [] => true
  | ⟨_, _, exported, value⟩ :: rest =>
      (!exported || valueLabelsOK value) && nestedLabelsOK rest
/-- A record value satisfies `levelLabelsOK` at its own level and below. -/
def valueLabelsOK : Value → Bool
  | .struct sub => levelLabelsOK sub && nestedLabelsOK sub
  | _ => true
end

/-- At every record level reached through exported record fields, the resolved
labels of the exported sibling fields are pairwise distinct and contain no '.'. -/
def labelsOK (fs : List Field) : Bool :=
  levelLabelsOK fs && nestedLabelsOK fs

/-- The part of a key before its first '.'. -/
def keyRoot (k : String) : List Char :=
  k.data.takeWhile (fun c => decide (c ≠ '.'))

/-! ## The program with the run-time checks of reflect -/

/-- Ways in which a checked run can stop without a result: a run-time panic
raised by the named operation, more nested calls than the given bound, or the
stack overflow of a formatting that never ends. -/
inductive Failure where
  | panic (call : String)
  | depthExceeded
  | stackOverflow
  deriving DecidableEq, Repr

/-- A `reflect.Value`: the zero Value, or a Go value together with the read-only
flag that reflect sets on what is reached through an unexported field. -/
inductive Reflected where
  | zero
  | of (value : Value) (readOnly : Bool)

/-- Model of `reflect.ValueOf`: the zero Value for the nil interface. -/
def ValueOf : Value → Reflected
  | .nil => .zero
  | v => .of v false

/-- Model of `reflect.Value.Kind`, which never panics. -/
def Reflected.Kind : Reflected → Kind
  | .zero => .Invalid
  | .of v _ => v.Kind

/-- Checked `reflect.Value.Elem`: panics unless the kind is pointer (Go also
allows it on an interface, where the code never calls it). -/
def Reflected.Elem : Reflected → Except Failure Reflected
  | .of .nilPtr _ => .ok .zero
  | .of (.ptr t) ro => .ok (.of t ro)
  | _ => .error (.panic "reflect: call of reflect.Value.Elem on a non-pointer Value")

/-- Checked `reflect.Value.IsNil`: panics unless the kind is pointer (Go also
allows chan, func, interface, map and slice, which the code never tests). -/
def Reflected.IsNil : Reflected → Except Failure Bool
  | .of .nilPtr _ => .ok true
  | .of (.ptr _) _ => .ok false
  | _ => .error (.panic "reflect: call of reflect.Value.IsNil on a non-pointer Value")

/-- Checked `reflect.Value.CanInterface`: panics on the zero Value. -/
def Reflected.CanInterface : Reflected → Except Failure Bool
  | .zero => .error (.panic "reflect: call of reflect.Value.CanInterface on zero Value")
  | .of _ ro => .ok (!ro)

/-- Checked `reflect.Value.Interface`: panics on the zero Value and on a value
obtained through an unexported field. -/
def Reflected.Interface : Reflected → Except Failure Value
  | .zero => .error (.panic "reflect: call of reflect.Value.Interface on zero Value")
  | .of v ro =>
      if ro then
        .error (.panic "reflect.Value.Interface: cannot return value obtained from unexported field")
      else .ok v.Interface

/-- Checked `reflect.Value.Type`: panics on the zero Value. The type is
represented by the names and tags of its fields (none for a non-struct type). -/
def Reflected.Type : Reflected → Except Failure (List (String × String))
  | .zero => .error (.panic "reflect: call of reflect.Value.Type on zero Value")
  | .of v _ => .ok (v.fields.map (fun f => (f.name, f.tag)))

/-- Checked `reflect.Type.Field`: panics when the type has no field `i`. -/
def typeField (typ : List (String × String)) (i : Nat) : Except Failure (String × String) :=
  match typ[i]? with
  | some f => .ok f
  | none => .error (.panic "reflect: Field index out of bounds")

/-- Checked `reflect.Value.NumField`: panics unless the kind is struct. -/
def Reflected.NumField : Reflected → Except Failure Nat
  | .of (.struct fs) _ => .ok fs.length
  | _ => .error (.panic "reflect: call of reflect.Value.NumField on a non-struct Value")

/-- Checked `reflect.Value.Field`: panics unless the kind is struct and the index
is in range; the result is read-only when the field is unexported. -/
def Reflected.Field : Reflected → Nat → Except Failure Reflected
  | .of (.struct fs) ro, i =>
      match fs[i]? with
      | some f => .ok (.of f.value (ro || !f.exported))
      | none => .error (.panic "reflect: Field index out of range")
  | _, _ => .error (.panic "reflect: call of reflect.Value.Field on a non-struct Value")

/-- Checked map assignment: panics on the nil map. -/
def GoMap.assign : GoMap → String → Value → Except Failure GoMap
  | .nilMap, _, _ => .error (.panic "assignment to entry in nil map")
  | .made es, k, v => .ok (.made (es.set k v))

/-- The loop of lines 35-69 with every reflective step checked: `left` more
iterations starting at index `i`; `recur` is the recursive call of line 52. -/
def fieldsLoopChecked (recur : RangeOrder → Value → Except Failure GoMap)
    (ord : RangeOrder) (typ : List (String × String)) (val : Reflected) :
    Nat → Nat → GoMap → Except Failure GoMap
  | 0, _, result => .ok result
  | left + 1, i, result => do
      let field ← typeField typ i
      let fieldValue ← val.Field i
      let tag := if field.2 = "" then field.1 else field.2
      let canInterface ← fieldValue.CanInterface
      if !canInterface then
        fieldsLoopChecked recur ord typ val left (i + 1) result
      else if fieldValue.Kind = .Struct then do
        let v ← fieldValue.Interface
        let nested ← recur (ord.sub i) v
        let result ← (ord.order [i] nested.entries).foldlM
          (fun r kv => GoMap.assign r (tag ++ "." ++ kv.1) kv.2) result
        fieldsLoopChecked recur ord typ val left (i + 1) result
      else if fieldValue.Kind = .Ptr then do
        let isNil ← fieldValue.IsNil
        if isNil then do
          let result ← result.assign tag .nil
          fieldsLoopChecked recur ord typ val left (i + 1) result
        else do
          let target ← fieldValue.Elem
          let x ← target.Interface
          let result ← result.assign tag x
          fieldsLoopChecked recur ord typ val left (i + 1) result
      else do
        let x ← fieldValue.Interface
        let result ← result.assign tag x
        fieldsLoopChecked recur ord typ val left (i + 1) result

/-- The body of `LogStructFields` (lines 23-71) with every reflective step
checked. -/
def LogStructFieldsBody (recur : RangeOrder → Value → Except Failure GoMap)
    (ord : RangeOrder) (v : Value) : Except Failure GoMap := do
  let val := ValueOf v
  let val ← if val.Kind = .Ptr then val.Elem else pure val
  if val.Kind ≠ .Struct then
    return .nilMap
  let result := GoMap.made []
  let typ ← val.Type
  let n ← val.NumField
  fieldsLoopChecked recur ord typ val n 0 result

/-- `LogStructFields` with every reflective step checked and at most `depth`
nested recursive calls below the outermost one. -/
def LogStructFieldsChecked : Nat → RangeOrder → Value → Except Failure GoMap
  | 0, ord, v => LogStructFieldsBody (fun _ _ => .error .depthExceeded) ord v
  | depth + 1, ord, v => LogStructFieldsBody (LogStructFieldsChecked depth) ord v

/-- `LogStruct` (lines 82-94) on top of the checked `LogStructFields`, with a
`fmt.Sprintf("%v", ·)` that may fail; writing to the builder cannot fail. -/
def LogStructChecked (depth : Nat) (sprintv : Value → Except Failure String)
    (ord : RangeOrder) (v : Value) : Except Failure String := do
  let fields ← LogStructFieldsChecked depth ord v
  (ord.order [] fields.entries).foldlM
    (fun sb kv => do
      let text ← sprintv kv.2
      pure (sb ++ kv.1 ++ ": " ++ text ++ "\n")) ""

/-- A stand-in for `fmt.Sprintf("%v", ·)` that may fail. Like the real one it
does not return on the slice that contains itself: the recursion of the
formatter never ends and the run dies with a stack overflow. Elsewhere it is
`exampleSprintv`. -/
def exampleSprintvChecked : Value → Except Failure String
  | .selfSlice => .error .stackOverflow
  | v => .ok (exampleSprintv v)

mutual
/-- The number of record levels nested inside a record with these fields: 0
when no field holds a record. References are not followed. -/
def fieldsDepth : List Field → Nat
  | [] => 0
  | ⟨_, _, _, value⟩ :: rest => max (valueDepth value) (fieldsDepth rest)
/-- The number of record levels a field value opens: 0 unless it is a record. -/
def valueDepth : Value → Nat
  | .struct sub => fieldsDepth sub + 1
  | _ => 0
end

/-- The nesting depth of the input record, seen through at most one reference. -/
def nestingDepth (v : Value) : Nat :=
  fieldsDepth (if v.Kind = .Ptr then v.Elem else v).fields

/-- A record nested three levels deep: A holds B, which holds C = 1. -/
def exampleThreeLevels : List Field :=
  [⟨"A", "", true,
      .struct [⟨"B", "", true, .struct [⟨"C", "", true, .prim (.int 1)⟩]⟩]⟩]

/-- An exported field I declared `interface{}` and holding a record with the
exported fields X = 1 and Y = 2. -/
def exampleIfaceRecord : List Field :=
  [⟨"I", "", true,
      .iface (.struct [⟨"X", "", true, .prim (.int 1)⟩, ⟨"Y", "", true, .prim (.int 2)⟩])⟩]

/-- Exported fields declared `interface{}`: I holds a reference to the number 5,
J holds a typed null reference, K holds a reference to a reference to 5. -/
def exampleIfaceReferences : List Field :=
  [⟨"I", "", true, .iface (.ptr (.prim (.int 5)))⟩, ⟨"J", "", true, .iface .nilPtr⟩,
   ⟨"K", "", true, .iface (.ptr (.ptr (.prim (.int 5))))⟩]

/-- An exported field S holding the slice that contains itself. -/
def exampleSelfSlice : List Field :=
  [⟨"S", "", true, .selfSlice⟩]

/-! ## Maps as association lists -/

theorem Entries.get?_set_self (es : Entries) (k : String) (v : Value) :
    (es.set k v).get? k = some v := by
  induction es with
  | nil => simp [Entries.set, Entries.get?]
  | cons e rest ih =>
    obtain ⟨k', v'⟩ := e
    by_cases h : k' = k
    · simp [Entries.set, Entries.get?, h]
    · simp [Entries.set, Entries.get?, h, ih]

theorem Entries.get?_set_ne (es : Entries) {k k' : String} (v : Value) (h : k' ≠ k) :
    (es.set k v).get? k' = es.get? k' := by
  induction es with
  | nil => simp [Entries.set, Entries.get?, Ne.symm h]
  | cons e rest ih =>
    obtain ⟨k₀, v₀⟩ := e
    by_cases h₀ : k₀ = k
    · subst h₀
      simp [Entries.set, Entries.get?, Ne.symm h]
    · by_cases h₁ : k₀ = k'
      · subst h₁
        simp [Entries.set, Entries.get?, h₀]
      · simp [Entries.set, Entries.get?, h₀, h₁, ih]

theorem Entries.keys_set (es : Entries) (k : String) (v : Value) :
    (es.set k v).keys = if k ∈ es.keys then es.keys else es.keys ++ [k] := by
  induction es with
  | nil => simp [Entries.set, Entries.keys]
  | cons e rest ih =>
    obtain ⟨k₀, v₀⟩ := e
    simp only [Entries.keys] at ih
    by_cases h₀ : k₀ = k
    · subst h₀
      simp [Entries.set, Entries.keys]
    · have h₁ : ¬ k = k₀ := fun h => h₀ h.symm
      by_cases hm : k ∈ List.map Prod.fst rest
      · simp [Entries.set, Entries.keys, h₀, h₁, ih, hm]
      · simp [Entries.set, Entries.keys, h₀, h₁, ih, hm]

theorem Entries.nodup_keys_set {es : Entries} (k : String) (v : Value)
    (h : es.keys.Nodup) : (es.set k v).keys.Nodup := by
  rw [Entries.keys_set]
  split
  · exact h
  · rename_i hk
    exact List.Nodup.append h (List.nodup_singleton k) (by simpa using hk)

theorem Entries.get?_eq_none_iff (es : Entries) (k : String) :
    es.get? k = none ↔ k ∉ es.keys := by
  induction es with
  | nil => simp [Entries.get?, Entries.keys]
  | cons e rest ih =>
    obtain ⟨k₀, v₀⟩ := e
    simp only [Entries.keys] at ih
    by_cases h₀ : k₀ = k
    · simp [Entries.get?, Entries.keys, h₀]
    · have h₁ : ¬ k = k₀ := fun h => h₀ h.symm
      simp [Entries.get?, Entries.keys, h₀, h₁, ih]

theorem Entries.mem_of_get?_eq_some {es : Entries} {k : String} {v : Value}
    (h : es.get? k = some v) : (k, v) ∈ es := by
  induction es with
  | nil => simp [Entries.get?] at h
  | cons e rest ih =>
    obtain ⟨k₀, v₀⟩ := e
    by_cases h₀ : k₀ = k
    · simp [Entries.get?, h₀] at h
      simp [h₀, h]
    · simp [Entries.get?, h₀] at h
      exact List.mem_cons_of_mem _ (ih h)

theorem Entries.get?_eq_some_of_mem {es : Entries} {k : String} {v : Value}
    (nd : es.keys.Nodup) (h : (k, v) ∈ es) : es.get? k = some v := by
  induction es with
  | nil => simp at h
  | cons e rest ih =>
    obtain ⟨k₀, v₀⟩ := e
    simp only [Entries.keys, List.map_cons, List.nodup_cons] at nd
    rcases List.mem_cons.1 h with h | h
    · cases h
      simp [Entries.get?]
    · have hne : k₀ ≠ k := by
        rintro rfl
        exact nd.1 (List.mem_map_of_mem Prod.fst h)
      simp [Entries.get?, hne]
      exact ih nd.2 h

theorem Entries.get?_eq_some_iff {es : Entries} (nd : es.keys.Nodup) (k : String)
    (v : Value) : es.get? k = some v ↔ (k, v) ∈ es :=
  ⟨Entries.mem_of_get?_eq_some, Entries.get?_eq_some_of_mem nd⟩

theorem Entries.nodup_of_nodup_keys {es : Entries} (nd : es.keys.Nodup) : es.Nodup :=
  List.Nodup.of_map Prod.fst nd

/-- Two maps with the same lookups have the same entries up to order. -/
theorem Entries.perm_of_get?_eq {a b : Entries} (na : a.keys.Nodup) (nb : b.keys.Nodup)
    (h : ∀ k, a.get? k = b.get? k) : a.Perm b := by
  rw [List.perm_ext_iff_of_nodup (Entries.nodup_of_nodup_keys na)
    (Entries.nodup_of_nodup_keys nb)]
  rintro ⟨k, v⟩
  rw [← Entries.get?_eq_some_iff na, ← Entries.get?_eq_some_iff nb, h]

/-- Reordering the entries of a map does not change its lookups. -/
theorem Entries.get?_eq_of_perm {a b : Entries} (na : a.keys.Nodup) (p : a.Perm b)
    (k : String) : a.get? k = b.get? k := by
  have nb : b.keys.Nodup := (List.Perm.nodup_iff (List.Perm.map Prod.fst p)).1 na
  cases hb : b.get? k with
  | none =>
    rw [Entries.get?_eq_none_iff] at hb ⊢
    intro hk
    exact hb ((List.Perm.mem_iff (List.Perm.map Prod.fst p)).1 hk)
  | some v =>
    rw [Entries.get?_eq_some_iff nb] at hb
    rw [Entries.get?_eq_some_iff na]
    exact (List.Perm.mem_iff p).2 hb

theorem Entries.count_keys_of_get?_eq_some {es : Entries} (nd : es.keys.Nodup)
    {k : String} {v : Value} (h : es.get? k = some v) : es.keys.count k = 1 := by
  apply List.count_eq_one_of_mem nd
  exact List.mem_map_of_mem Prod.fst (Entries.mem_of_get?_eq_some h)

/-! ## Sequences of writes -/

theorem lastWrite_append (a b : Entries) (k : String) :
    lastWrite (a ++ b) k = (lastWrite b k).or (lastWrite a k) := by
  induction a with
  | nil => simp [lastWrite]
  | cons e rest ih =>
    obtain ⟨k₀, v₀⟩ := e
    rw [List.cons_append]
    simp only [lastWrite, ih, Option.or_assoc]

theorem lastWrite_eq_none_iff (ws : Entries) (k : String) :
    lastWrite ws k = none ↔ k ∉ ws.keys := by
  induction ws with
  | nil => simp [lastWrite, Entries.keys]
  | cons e rest ih =>
    obtain ⟨k₀, v₀⟩ := e
    simp only [Entries.keys] at ih
    by_cases h₀ : k₀ = k
    · simp [lastWrite, Entries.keys, h₀]
    · have h₁ : ¬ k = k₀ := fun h => h₀ h.symm
      simp only [lastWrite, h₀, if_false, Option.or_none, ih, Entries.keys, List.map_cons,
        List.mem_cons, h₁, false_or]

theorem lastWrite_eq_get? {ws : Entries} (nd : ws.keys.Nodup) (k : String) :
    lastWrite ws k = ws.get? k := by
  induction ws with
  | nil => simp [lastWrite, Entries.get?]
  | cons e rest ih =>
    obtain ⟨k₀, v₀⟩ := e
    simp only [Entries.keys, List.map_cons, List.nodup_cons] at nd
    by_cases h₀ : k₀ = k
    · subst h₀
      have : lastWrite rest k₀ = none := (lastWrite_eq_none_iff rest k₀).2 nd.1
      simp [lastWrite, Entries.get?, this]
    · simp only [lastWrite, Entries.get?, h₀, if_false, ih nd.2, Option.or_none]

theorem get?_applyWrites (ws : Entries) (result : Entries) (k : String) :
    (applyWrites ws result).get? k = (lastWrite ws k).or (result.get? k) := by
  induction ws generalizing result with
  | nil => simp [applyWrites, lastWrite]
  | cons e rest ih =>
    obtain ⟨k₀, v₀⟩ := e
    have ih' := ih (result.set k₀ v₀)
    simp only [applyWrites, List.foldl_cons] at ih' ⊢
    rw [ih']
    by_cases h₀ : k₀ = k
    · subst h₀
      cases hr : lastWrite rest k₀ <;> simp [lastWrite, hr, Entries.get?_set_self]
    · have h₁ : k ≠ k₀ := fun h => h₀ h.symm
      cases hr : lastWrite rest k <;> simp [lastWrite, hr, h₀, Entries.get?_set_ne _ _ h₁]

theorem nodup_keys_applyWrites (ws : Entries) {result : Entries}
    (nd : result.keys.Nodup) : (applyWrites ws result).keys.Nodup := by
  induction ws generalizing result with
  | nil => simpa [applyWrites] using nd
  | cons e rest ih =>
    simp only [applyWrites, List.foldl_cons]
    exact ih (Entries.nodup_keys_set _ _ nd)

theorem label_dot_injective (label : String) {a b : String}
    (h : label ++ "." ++ a = label ++ "." ++ b) : a = b := by
  have h' := congrArg String.data h
  simp only [String.data_append, List.append_assoc] at h'
  exact String.ext (List.append_cancel_left (List.append_cancel_left h'))

theorem lastWrite_underLabel (label : String) (es : Entries) (k : String) :
    lastWrite (underLabel label es) (label ++ "." ++ k) = lastWrite es k := by
  induction es with
  | nil => simp [underLabel, lastWrite]
  | cons e rest ih =>
    obtain ⟨k₀, v₀⟩ := e
    simp only [underLabel, List.map_cons] at ih ⊢
    simp only [lastWrite, ih]
    by_cases h₀ : k₀ = k
    · simp [h₀]
    · have : ¬ label ++ "." ++ k₀ = label ++ "." ++ k := fun h => h₀ (label_dot_injective label h)
      simp [h₀, this]

theorem keys_underLabel (label : String) (es : Entries) :
    (underLabel label es).keys = es.keys.map (fun k => label ++ "." ++ k) := by
  simp [underLabel, Entries.keys]

theorem lastWrite_underLabel_congr (label : String) {a b : Entries}
    (h : ∀ k, lastWrite a k = lastWrite b k) (k : String) :
    lastWrite (underLabel label a) k = lastWrite (underLabel label b) k := by
  by_cases hk : ∃ k', k = label ++ "." ++ k'
  · obtain ⟨k', rfl⟩ := hk
    rw [lastWrite_underLabel, lastWrite_underLabel, h]
  · have none_of : ∀ es : Entries, lastWrite (underLabel label es) k = none := by
      intro es
      rw [lastWrite_eq_none_iff, keys_underLabel]
      intro hm
      obtain ⟨k', _, rfl⟩ := List.mem_map.1 hm
      exact hk ⟨k', rfl⟩
    rw [none_of, none_of]

/-! ## The loop, one field at a time -/

theorem foldl_set_underLabel (label : String) (es result : Entries) :
    es.foldl (fun r kv => r.set (label ++ "." ++ kv.1) kv.2) result
      = applyWrites (underLabel label es) result := by
  simp [applyWrites, underLabel, List.foldl_map]

theorem LogStructFields_struct (ord : RangeOrder) (fs : List Field) :
    LogStructFields ord (.struct fs) = .made (fieldsLoop ord 0 fs []) := by
  rw [LogStructFields]

theorem fieldsLoop_nil (ord : RangeOrder) (i : Nat) (result : Entries) :
    fieldsLoop ord i [] result = result := by
  rw [fieldsLoop]

theorem Value.eq_struct_of_kind {v : Value} (h : v.Kind = .Struct) :
    v = .struct v.fields := by
  cases v with
  | prim p => cases p <;> simp [Value.Kind] at h
  | struct fs => rfl
  | _ => simp [Value.Kind] at h

/-- One iteration of the loop, written with the field's projections. -/
theorem fieldsLoop_cons (ord : RangeOrder) (i : Nat) (f : Field) (rest : List Field)
    (result : Entries) :
    fieldsLoop ord i (f :: rest) result =
      if f.exported = false then fieldsLoop ord (i + 1) rest result
      else if f.value.Kind = .Struct then
        fieldsLoop ord (i + 1) rest
          (applyWrites (underLabel f.label
            (ord.order [i] (fieldsLoop (ord.sub i) 0 f.value.fields []))) result)
      else fieldsLoop ord (i + 1) rest (result.set f.label f.value.emitted) := by
  obtain ⟨name, tag, exported, value⟩ := f
  rw [fieldsLoop]
  simp only [Field.exported, Field.value, Field.label, Field.name, Field.tag,
    foldl_set_underLabel]
  cases exported
  · simp
  · by_cases hs : value.Kind = .Struct
    · have hv := Value.eq_struct_of_kind hs
      rw [hv, LogStructFields_struct]
      simp [Value.Kind, Value.fields, GoMap.entries]
    · by_cases hp : value.Kind = .Ptr
      · cases hn : value.IsNil <;> simp [hs, hp, hn, Value.emitted]
      · simp [hs, hp, Value.emitted]

theorem nodup_keys_fieldsLoop (ord : RangeOrder) (i : Nat) (fs : List Field)
    {result : Entries} (nd : result.keys.Nodup) :
    (fieldsLoop ord i fs result).keys.Nodup := by
  induction fs generalizing i result with
  | nil => rwa [fieldsLoop_nil]
  | cons f rest ih =>
    rw [fieldsLoop_cons]
    split
    · exact ih _ nd
    · split
      · exact ih _ (nodup_keys_applyWrites _ nd)
      · exact ih _ (Entries.nodup_keys_set _ _ nd)

theorem emittedFields_cons (f : Field) (rest : List Field) :
    emittedFields (f :: rest) =
      (if f.exported = false then []
        else if f.value.Kind = .Struct then underLabel f.label (emittedFields f.value.fields)
        else [(f.label, f.value.emitted)]) ++ emittedFields rest := by
  obtain ⟨name, tag, exported, value⟩ := f
  rw [emittedFields]
  simp only [Field.exported, Field.value, Field.label, Field.name, Field.tag]
  cases exported
  · simp
  · cases value with
    | prim p => cases p <;> simp [emittedUnder, Value.Kind]
    | struct fs => simp [emittedUnder, Value.Kind, underLabel, Value.fields]
    | _ => simp [emittedUnder, Value.Kind]

theorem sizeOf_fields_lt {f : Field} (h : f.value.Kind = .Struct) (rest : List Field) :
    sizeOf f.value.fields < sizeOf (f :: rest) := by
  obtain ⟨name, tag, exported, value⟩ := f
  simp only [Field.value] at h ⊢
  have hv := Value.eq_struct_of_kind h
  have : sizeOf value = 1 + sizeOf value.fields := by
    conv_lhs => rw [hv]
    simp
  simp only [List.cons.sizeOf_spec, Field.mk.sizeOf_spec]
  omega

/-- The value found under a key after the loop is the one written by the last
emitted field with that key, or else the one the map held before. -/
theorem get?_fieldsLoop (ord : RangeOrder) (i : Nat) (fs : List Field)
    (result : Entries) (k : String) :
    (fieldsLoop ord i fs result).get? k
      = (lastWrite (emittedFields fs) k).or (result.get? k) := by
  match fs with
  | [] => simp [fieldsLoop_nil, emittedFields, lastWrite]
  | f :: rest =>
    rw [fieldsLoop_cons, emittedFields_cons, lastWrite_append]
    split
    · rw [get?_fieldsLoop ord (i + 1) rest]
      simp [lastWrite]
    · split
      · rename_i hs
        have hlt := sizeOf_fields_lt hs rest
        rw [get?_fieldsLoop ord (i + 1) rest, get?_applyWrites, Option.or_assoc]
        congr 2
        apply lastWrite_underLabel_congr
        intro k'
        have nd : (fieldsLoop (ord.sub i) 0 f.value.fields []).keys.Nodup :=
          nodup_keys_fieldsLoop _ _ _ (by simp [Entries.keys])
        have p := ord.perm [i] (fieldsLoop (ord.sub i) 0 f.value.fields [])
        have nd' : (ord.order [i] (fieldsLoop (ord.sub i) 0 f.value.fields [])).keys.Nodup :=
          (List.Perm.nodup_iff (List.Perm.map Prod.fst p)).2 nd
        rw [lastWrite_eq_get? nd', Entries.get?_eq_of_perm nd' p,
          get?_fieldsLoop (ord.sub i) 0 f.value.fields]
        simp [Entries.get?]
      · rw [get?_fieldsLoop ord (i + 1) rest, Option.or_assoc]
        congr 1
        by_cases hk : f.label = k
        · subst hk
          simp [lastWrite, Entries.get?_set_self]
        · have hk' : k ≠ f.label := fun h => hk h.symm
          simp [lastWrite, hk, Entries.get?_set_ne _ _ hk']
termination_by sizeOf fs
decreasing_by
  all_goals simp_wf
  all_goals first
    | omega
    | exact hlt

/-! ## The whole function -/

theorem LogStructFields_ptr_struct (ord : RangeOrder) (fs : List Field) :
    LogStructFields ord (.ptr (.struct fs)) = .made (fieldsLoop ord 0 fs []) := by
  rw [LogStructFields]

/-- The function as the source writes it: one dereference of a pointer, the nil
map unless the result is a struct, otherwise the loop over its fields. -/
theorem LogStructFields_eq (ord : RangeOrder) (v : Value) :
    LogStructFields ord v =
      if (if v.Kind = .Ptr then v.Elem else v).Kind ≠ .Struct then .nilMap
      else .made (fieldsLoop ord 0 (if v.Kind = .Ptr then v.Elem else v).fields []) := by
  cases v with
  | nil => simp [LogStructFields, Value.Kind]
  | prim p => cases p <;> simp [LogStructFields, Value.Kind]
  | nilPtr => simp [LogStructFields, Value.Kind, Value.Elem]
  | ptr t =>
    cases t with
    | prim p => cases p <;> simp [LogStructFields, Value.Kind, Value.Elem]
    | struct fs => simp [LogStructFields, Value.Kind, Value.Elem, Value.fields]
    | _ => simp [LogStructFields, Value.Kind, Value.Elem]
  | struct fs => simp [LogStructFields, Value.Kind, Value.fields]
  | iface d => simp [LogStructFields, Value.Kind]
  | selfSlice => simp [LogStructFields, Value.Kind]

theorem nodup_keys_LogStructFields (ord : RangeOrder) (v : Value) :
    (LogStructFields ord v).entries.keys.Nodup := by
  rw [LogStructFields_eq]
  by_cases h : (if v.Kind = .Ptr then v.Elem else v).Kind ≠ .Struct
  · rw [if_pos h]
    simp [GoMap.entries, Entries.keys]
  · rw [if_neg h]
    exact nodup_keys_fieldsLoop _ _ _ (by simp [Entries.keys])

/-- The value stored under a key is the one written by the last emitted field
with that key. -/
theorem get?_LogStructFields_struct (ord : RangeOrder) (fs : List Field) (k : String) :
    (LogStructFields ord (.struct fs)).entries.get? k = lastWrite (emittedFields fs) k := by
  rw [LogStructFields_struct]
  simp [GoMap.entries, get?_fieldsLoop, Entries.get?]

theorem emittedFields_append (a b : List Field) :
    emittedFields (a ++ b) = emittedFields a ++ emittedFields b := by
  induction a with
  | nil => simp [emittedFields]
  | cons f rest ih => rw [List.cons_append, emittedFields_cons, emittedFields_cons, ih,
      List.append_assoc]

theorem fieldsLoop_append (ord : RangeOrder) (i : Nat) (a b : List Field)
    (result : Entries) :
    fieldsLoop ord i (a ++ b) result
      = fieldsLoop ord (i + a.length) b (fieldsLoop ord i a result) := by
  induction a generalizing i result with
  | nil => simp [fieldsLoop_nil]
  | cons f rest ih =>
    rw [List.cons_append, fieldsLoop_cons, fieldsLoop_cons]
    have e : i + (f :: rest).length = i + 1 + rest.length := by
      simp only [List.length_cons]; omega
    rw [e]
    split
    · exact ih _ _
    · split
      · exact ih _ _
      · exact ih _ _

theorem Entries.set_of_not_mem {es : Entries} {k : String} (v : Value)
    (h : k ∉ es.keys) : es.set k v = es ++ [(k, v)] := by
  induction es with
  | nil => simp [Entries.set]
  | cons e rest ih =>
    obtain ⟨k₀, v₀⟩ := e
    simp only [Entries.keys, List.map_cons, List.mem_cons, not_or] at h
    have h₀ : ¬ k₀ = k := fun e => h.1 e.symm
    simp [Entries.set, h₀, ih h.2]

/-- Two results with the same emitted fields are the same mapping. -/
theorem perm_fieldsLoop_of_emittedFields_eq (ord ord' : RangeOrder) (i j : Nat)
    {fs fs' : List Field} (h : emittedFields fs = emittedFields fs') :
    (fieldsLoop ord i fs []).Perm (fieldsLoop ord' j fs' []) := by
  apply Entries.perm_of_get?_eq
    (nodup_keys_fieldsLoop _ _ _ (by simp [Entries.keys]))
    (nodup_keys_fieldsLoop _ _ _ (by simp [Entries.keys]))
  intro k
  rw [get?_fieldsLoop, get?_fieldsLoop, h]

/-! ## Properties of the specification -/

/-- C1: a record whose fields are all primitive (of a kind that is neither
record nor reference) and whose resolved labels are pairwise distinct is
flattened to exactly one entry per exported field, keyed by the resolved label
(the tag when non-empty, else the name) and holding the field's value (what
`Interface()` returns for it), and to nothing else. -/
theorem C1_primitive_fields (ord : RangeOrder) (fs : List Field)
    (hprim : ∀ f ∈ fs, f.value.Kind ≠ .Struct ∧ f.value.Kind ≠ .Ptr)
    (hlabels : (fs.map Field.label).Nodup) :
    LogStructFields ord (.struct fs)
      = .made ((fs.filter (fun f => f.exported)).map
          (fun f => (f.label, f.value.Interface))) := by
  rw [LogStructFields_struct]
  have key : ∀ (fs : List Field) (i : Nat) (result : Entries),
      (∀ f ∈ fs, f.value.Kind ≠ .Struct ∧ f.value.Kind ≠ .Ptr) →
      (fs.map Field.label).Nodup → (∀ f ∈ fs, f.label ∉ result.keys) →
      fieldsLoop ord i fs result
        = result ++ (fs.filter (fun f => f.exported)).map
            (fun f => (f.label, f.value.Interface)) := by
    intro fs
    induction fs with
    | nil => intro i result _ _ _; simp [fieldsLoop_nil]
    | cons f rest ih =>
      intro i result hp hl hr
      rw [fieldsLoop_cons]
      have hp' : ∀ g ∈ rest, g.value.Kind ≠ .Struct ∧ g.value.Kind ≠ .Ptr :=
        fun g hg => hp g (List.mem_cons_of_mem _ hg)
      rw [List.map_cons, List.nodup_cons] at hl
      have hr' : ∀ g ∈ rest, g.label ∉ result.keys :=
        fun g hg => hr g (List.mem_cons_of_mem _ hg)
      cases he : f.exported
      · simp [he, ih (i + 1) result hp' hl.2 hr']
      · have hk := hp f (List.mem_cons_self _ _)
        have hfresh := hr f (List.mem_cons_self _ _)
        have hem : f.value.emitted = f.value.Interface := by simp [Value.emitted, hk.2]
        rw [if_neg (by simp), if_neg hk.1, hem, Entries.set_of_not_mem _ hfresh]
        rw [ih (i + 1) _ hp' hl.2]
        · simp [he]
        · intro g hg hmem
          simp only [Entries.keys, List.map_append, List.map_cons, List.map_nil,
            List.mem_append, List.mem_singleton] at hmem
          rcases hmem with hmem | hmem
          · exact hr' g hg hmem
          · exact hl.1 (hmem ▸ List.mem_map_of_mem Field.label hg)
  rw [key fs 0 [] hprim hlabels (by simp [Entries.keys])]
  simp

theorem C1_primitive_fields_witness :
    (∀ f ∈ examplePrimitive, f.value.Kind ≠ .Struct ∧ f.value.Kind ≠ .Ptr)
      ∧ (examplePrimitive.map Field.label).Nodup
      ∧ LogStructFields RangeOrder.reversed (.struct examplePrimitive)
          = .made [("id", .prim (.int 7)), ("Name", .prim (.str "a"))] :=
  ⟨by decide, by decide, C1_primitive_fields RangeOrder.reversed examplePrimitive
    (by decide) (by decide)⟩

theorem order_nil (ord : RangeOrder) (pos : List Nat) : ord.order pos [] = [] :=
  List.Perm.eq_nil (ord.perm pos [])

/-- C6: an input that is not a record after at most one dereference (a bare
primitive, the nil interface, a null reference, a reference to a primitive)
gives a mapping with zero entries (the nil map), and LogStruct gives the empty
string. -/
theorem C6_not_a_record (sprintv : Value → String) (ord : RangeOrder) (v : Value)
    (h : (if v.Kind = .Ptr then v.Elem else v).Kind ≠ .Struct) :
    LogStructFields ord v = .nilMap ∧ (LogStructFields ord v).len = 0
      ∧ LogStruct sprintv ord v = "" := by
  have e : LogStructFields ord v = .nilMap := by
    rw [LogStructFields_eq, if_pos h]
  refine ⟨e, ?_, ?_⟩
  · rw [e]; rfl
  · simp [LogStruct, e, GoMap.entries, order_nil]

theorem C6_not_a_record_witness :
    ((if (Value.ptr (.prim (.int 5))).Kind = .Ptr then (Value.ptr (.prim (.int 5))).Elem
        else Value.ptr (.prim (.int 5))).Kind ≠ .Struct)
      ∧ LogStructFields RangeOrder.insertion (.ptr (.prim (.int 5))) = .nilMap
      ∧ (LogStructFields RangeOrder.insertion (.ptr (.prim (.int 5)))).len = 0
      ∧ LogStruct exampleSprintv RangeOrder.insertion (.ptr (.prim (.int 5))) = "" :=
  ⟨by decide, C6_not_a_record exampleSprintv RangeOrder.insertion (.ptr (.prim (.int 5)))
    (by decide)⟩

/-- C7: the top-level input is dereferenced exactly once. A reference to a
record gives the same mapping as the record itself; a reference whose target is
not a record (a reference to a reference to a record included) and a null
reference give a mapping with no entries. -/
theorem C7_one_dereference (ord : RangeOrder) (fs : List Field) (t : Value)
    (ht : t.Kind ≠ .Struct) :
    LogStructFields ord (.ptr (.struct fs)) = LogStructFields ord (.struct fs)
      ∧ LogStructFields ord (.ptr t) = .nilMap
      ∧ (LogStructFields ord (.ptr t)).len = 0
      ∧ LogStructFields ord (.ptr (.ptr (.struct fs))) = .nilMap
      ∧ LogStructFields ord .nilPtr = .nilMap := by
  have e : LogStructFields ord (.ptr t) = .nilMap := by
    have hk : (Value.ptr t).Kind = .Ptr := rfl
    have he : (Value.ptr t).Elem = t := rfl
    rw [LogStructFields_eq, hk, if_pos rfl, he, if_pos ht]
  refine ⟨?_, e, ?_, ?_, ?_⟩
  · rw [LogStructFields_ptr_struct, LogStructFields_struct]
  · rw [e]; rfl
  · simp [LogStructFields]
  · simp [LogStructFields]

theorem C7_one_dereference_witness :
    (Value.ptr (.struct examplePrimitive)).Kind ≠ .Struct
      ∧ LogStructFields RangeOrder.insertion (.ptr (.struct examplePrimitive))
          = LogStructFields RangeOrder.insertion (.struct examplePrimitive)
      ∧ LogStructFields RangeOrder.insertion (.ptr (.ptr (.struct examplePrimitive)))
          = .nilMap :=
  have h := C7_one_dereference RangeOrder.insertion examplePrimitive
    (.ptr (.struct examplePrimitive)) (by decide)
  ⟨by decide, h.1, h.2.1⟩

theorem foldl_lines (line : String × Value → String) (l : Entries) (sb : String) :
    l.foldl (fun sb kv => sb ++ line kv) sb = sb ++ String.join (l.map line) := by
  induction l generalizing sb with
  | nil => simp [String.join]
  | cons e rest ih =>
    rw [List.foldl_cons, ih, List.map_cons]
    have j : ∀ (x : String) (xs : List String), String.join (x :: xs) = x ++ String.join xs := by
      intro x xs
      have g : ∀ (ys : List String) (a : String),
          ys.foldl (fun r s => r ++ s) a = a ++ ys.foldl (fun r s => r ++ s) "" := by
        intro ys
        induction ys with
        | nil => intro a; simp
        | cons y ys ihy =>
          intro a
          rw [List.foldl_cons, ihy, List.foldl_cons, ihy ("" ++ y)]
          simp [String.append_assoc]
      simp only [String.join, List.foldl_cons]
      rw [g xs ("" ++ x)]
      simp
    rw [j, String.append_assoc]

/-- C9: the string returned by LogStruct is the concatenation, over an ordering
of the entries of LogStructFields in which every entry occurs exactly once, of
the lines key ++ ": " ++ text of the value ++ "\n", and nothing else. -/
theorem C9_lines (sprintv : Value → String) (ord : RangeOrder) (v : Value) :
    ∃ l : Entries, l.Perm (LogStructFields ord v).entries ∧ l.Nodup
      ∧ LogStruct sprintv ord v
          = String.join (l.map (fun kv => kv.1 ++ ": " ++ sprintv kv.2 ++ "\n")) := by
  refine ⟨ord.order [] (LogStructFields ord v).entries, ord.perm _ _, ?_, ?_⟩
  · exact (List.Perm.nodup_iff (ord.perm _ _)).2
      (Entries.nodup_of_nodup_keys (nodup_keys_LogStructFields ord v))
  · have h := foldl_lines (fun kv => kv.1 ++ ": " ++ sprintv kv.2 ++ "\n")
      (ord.order [] (LogStructFields ord v).entries) ""
    simp only [String.append_assoc] at h ⊢
    simp only [LogStruct, String.append_assoc]
    rw [h]
    simp

theorem LogStruct_examplePrimitive :
    LogStruct exampleSprintv RangeOrder.reversed (.struct examplePrimitive)
      = "Name: a\nid: 7\n" := by decide

theorem mem_keys_LogStructFields_struct (ord : RangeOrder) (fs : List Field) (k : String) :
    k ∈ (LogStructFields ord (.struct fs)).entries.keys ↔ k ∈ (emittedFields fs).keys := by
  rw [← not_iff_not, ← Entries.get?_eq_none_iff, ← lastWrite_eq_none_iff,
    get?_LogStructFields_struct]

/-- A key that the later fields do not write keeps the value written by an
exported non-record field. -/
theorem get?_of_not_written_later (ord ord' : RangeOrder) (pre post : List Field)
    (f : Field) (hexp : f.exported = true) (hkind : f.value.Kind ≠ .Struct)
    (hlater : (LogStructFields ord' (.struct post)).entries.get? f.label = none) :
    (LogStructFields ord (.struct (pre ++ f :: post))).entries.get? f.label
      = some f.value.emitted := by
  rw [get?_LogStructFields_struct] at hlater ⊢
  rw [emittedFields_append, emittedFields_cons, lastWrite_append, lastWrite_append, hlater]
  simp [hexp, hkind, lastWrite]

/-- C4 (as worded) fails: the exported fields of exampleIfaceReferences are
declared `interface{}`; I holds a non-null reference to 5 and is mapped to the
reference itself, not to 5; J holds a null reference and is mapped to that typed
null reference, not to nil. The code tests the kind of the field, which is
Interface here, and so does not take the branch for references. -/
theorem C4_counterexample :
    exampleIfaceReferences.map Field.exported = [true, true, true]
      ∧ exampleIfaceReferences.map (fun f => f.value.Interface)
          = [.ptr (.prim (.int 5)), .nilPtr, .ptr (.ptr (.prim (.int 5)))]
      ∧ (LogStructFields RangeOrder.insertion (.struct exampleIfaceReferences)).entries
          = [("I", .ptr (.prim (.int 5))), ("J", .nilPtr),
              ("K", .ptr (.ptr (.prim (.int 5))))]
      ∧ (LogStructFields RangeOrder.insertion (.struct exampleIfaceReferences)).entries.get?
          "I" ≠ some (.prim (.int 5))
      ∧ (LogStructFields RangeOrder.insertion (.struct exampleIfaceReferences)).entries.get?
          "J" ≠ some .nil := by
  decide

/-- C4 (amended): an exported field declared with a pointer type, whose key no
later-declared field writes, is mapped to nil when the reference is null and to
the value the reference points to when it is not; a reference held in an
exported field declared with an interface type is stored as it is. -/
theorem C4_reference_field (ord ord' : RangeOrder) (pre post : List Field) (f : Field)
    (hexp : f.exported = true)
    (hlater : (LogStructFields ord' (.struct post)).entries.get? f.label = none) :
    (f.value = .nilPtr →
        (LogStructFields ord (.struct (pre ++ f :: post))).entries.get? f.label = some .nil)
      ∧ (∀ t, f.value = .ptr t →
        (LogStructFields ord (.struct (pre ++ f :: post))).entries.get? f.label
          = some t.Interface)
      ∧ (∀ r, f.value = .iface r →
        (LogStructFields ord (.struct (pre ++ f :: post))).entries.get? f.label
          = some r) := by
  have h : f.value.Kind ≠ .Struct →
      (LogStructFields ord (.struct (pre ++ f :: post))).entries.get? f.label
        = some f.value.emitted :=
    fun hk => get?_of_not_written_later ord ord' pre post f hexp hk hlater
  refine ⟨?_, ?_, ?_⟩
  · intro hv
    rw [h (by rw [hv]; decide), hv]; rfl
  · intro t hv
    rw [h (by rw [hv]; simp [Value.Kind]), hv]; rfl
  · intro r hv
    rw [h (by rw [hv]; simp [Value.Kind]), hv]; rfl

theorem C4_reference_field_witness :
    (LogStructFields RangeOrder.insertion
        (.struct ([] ++ Field.mk "P" "" true (.ptr (.prim (.int 5))) ::
          [Field.mk "Q" "" true .nilPtr]))).entries.get? "P" = some (.prim (.int 5))
      ∧ (LogStructFields RangeOrder.insertion
        (.struct ([Field.mk "P" "" true (.ptr (.prim (.int 5)))] ++
          Field.mk "Q" "" true .nilPtr :: []))).entries.get? "Q" = some .nil :=
  ⟨(C4_reference_field RangeOrder.insertion RangeOrder.insertion []
      [Field.mk "Q" "" true .nilPtr] (Field.mk "P" "" true (.ptr (.prim (.int 5))))
      rfl (by decide)).2.1 (.prim (.int 5)) rfl,
   (C4_reference_field RangeOrder.insertion RangeOrder.insertion
      [Field.mk "P" "" true (.ptr (.prim (.int 5)))] [] (Field.mk "Q" "" true .nilPtr)
      rfl (by decide)).1 rfl⟩

/-- C5 (as worded) fails: in exampleRecordClash the two exported siblings A and
B both resolve to "x", yet the entry for "x" holds 1, the value of the earlier
field A, because the later field B is a record and only writes "x.Y". In
exampleTripleClash the siblings A and B both resolve to "x", yet the entry for
"x" holds 3, written by the still later field C, not the value 2 of B. -/
theorem C5_counterexample :
    (exampleRecordClash.map Field.label = ["x", "x"]
      ∧ exampleRecordClash.map Field.exported = [true, true]
      ∧ (LogStructFields RangeOrder.insertion (.struct exampleRecordClash)).entries
          = [("x", .prim (.int 1)), ("x.Y", .prim (.int 2))])
    ∧ (exampleTripleClash.map Field.label = ["x", "x", "x"]
      ∧ exampleTripleClash.map Field.exported = [true, true, true]
      ∧ exampleTripleClash.map Field.value
          = [.prim (.int 1), .prim (.int 2), .prim (.int 3)]
      ∧ (LogStructFields RangeOrder.insertion (.struct exampleTripleClash)).entries
          = [("x", .prim (.int 3))]
      ∧ (LogStructFields RangeOrder.insertion (.struct exampleTripleClash)).entries.get? "x"
          ≠ some (.prim (.int 2))) := by
  decide

/-- C5 (amended): when two exported sibling fields resolve to the same label,
the later one is not a record and no field declared after it writes that key,
the result has exactly one entry for the label and it holds the value emitted
for the later field. In general the value stored under any key is the one
written by the last emitted field, in declaration order, that writes the key,
and a key is present exactly when some emitted field writes it. -/
theorem C5_last_write_wins (ord ord' : RangeOrder) (pre mid post : List Field)
    (f g : Field) (_hf : f.exported = true) (hg : g.exported = true)
    (hlabel : f.label = g.label) (hkind : g.value.Kind ≠ .Struct)
    (hlater : (LogStructFields ord' (.struct post)).entries.get? g.label = none) :
    ((LogStructFields ord (.struct (pre ++ f :: (mid ++ g :: post)))).entries.get? f.label
        = some g.value.emitted
      ∧ (LogStructFields ord (.struct (pre ++ f :: (mid ++ g :: post)))).entries.keys.count
          f.label = 1)
    ∧ ∀ (fs : List Field) (k : String),
        (LogStructFields ord (.struct fs)).entries.get? k = lastWrite (emittedFields fs) k
        ∧ (LogStructFields ord (.struct fs)).entries.keys.count k
            = if k ∈ (emittedFields fs).keys then 1 else 0 := by
  constructor
  · have e : pre ++ f :: (mid ++ g :: post) = (pre ++ f :: mid) ++ g :: post := by simp
    have h := get?_of_not_written_later ord ord' (pre ++ f :: mid) post g hg hkind hlater
    rw [e, hlabel]
    exact ⟨h, Entries.count_keys_of_get?_eq_some (nodup_keys_LogStructFields _ _) h⟩
  · intro fs k
    refine ⟨get?_LogStructFields_struct ord fs k, ?_⟩
    split
    · rename_i hk
      exact List.count_eq_one_of_mem (nodup_keys_LogStructFields _ _)
        ((mem_keys_LogStructFields_struct ord fs k).2 hk)
    · rename_i hk
      exact List.count_eq_zero_of_not_mem
        (fun hm => hk ((mem_keys_LogStructFields_struct ord fs k).1 hm))

theorem C5_last_write_wins_witness :
    (LogStructFields RangeOrder.reversed (.struct exampleTripleClash)).entries.get? "x"
        = some (.prim (.int 3))
      ∧ (LogStructFields RangeOrder.reversed (.struct exampleTripleClash)).entries.keys.count
          "x" = 1 :=
  (C5_last_write_wins RangeOrder.reversed RangeOrder.insertion []
    [Field.mk "B" "x" true (.prim (.int 2))] []
    (Field.mk "A" "x" true (.prim (.int 1))) (Field.mk "C" "x" true (.prim (.int 3)))
    rfl rfl rfl (by decide) (by decide)).1

/-! ## Fields and their dotted paths -/

theorem mem_emittedFields_of_mem {fs : List Field} {f : Field} (hm : f ∈ fs)
    (hexp : f.exported = true) (hkind : f.value.Kind ≠ .Struct) :
    (f.label, f.value.emitted) ∈ emittedFields fs := by
  induction fs with
  | nil => simp at hm
  | cons g rest ih =>
    rw [emittedFields_cons]
    rcases List.mem_cons.1 hm with h | h
    · subst h
      simp [hexp, hkind]
    · exact List.mem_append_right _ (ih h)

theorem mem_emittedFields_of_mem_sub {fs sub : List Field} {f : Field} {k : String}
    {x : Value} (hm : f ∈ fs) (hexp : f.exported = true) (hsub : f.value = .struct sub)
    (hk : (k, x) ∈ emittedFields sub) :
    (f.label ++ "." ++ k, x) ∈ emittedFields fs := by
  induction fs with
  | nil => simp at hm
  | cons g rest ih =>
    rw [emittedFields_cons]
    rcases List.mem_cons.1 hm with h | h
    · subst h
      have hkind : f.value.Kind = .Struct := by rw [hsub]; rfl
      have hfields : f.value.fields = sub := by rw [hsub]; rfl
      apply List.mem_append_left
      simp only [hexp, hkind, hfields, if_true, Bool.true_eq_false, if_false, underLabel]
      exact List.mem_map.2 ⟨(k, x), hk, rfl⟩
    · exact List.mem_append_right _ (ih h)

/-- Every accessible non-record field is among the emitted fields, under its
dotted path and with its emitted value. -/
theorem mem_emittedFields_of_fieldAt {fs : List Field} {path : List String} {v : Value}
    (h : FieldAt fs path v) (hkind : v.Kind ≠ .Struct) :
    (dotted path, v.emitted) ∈ emittedFields fs := by
  induction h with
  | here fs f hm hexp => exact mem_emittedFields_of_mem hm hexp hkind
  | inside fs f sub l path v hm hexp hsub _ ih =>
    exact mem_emittedFields_of_mem_sub hm hexp hsub (ih hkind)

/-- C3 (as worded) fails: in exampleClash the exported leaf field A (path "x",
value 1) does not appear with its value, since the only entry is "x" with the
value 2 of the later field B; and in exampleReferences the exported leaf field
P, a reference to 5, appears with the target 5 and not with the reference. -/
theorem C3_counterexample :
    (FieldAt exampleClash ["x"] (.prim (.int 1)) ∧ (Value.prim (.int 1)).IsLeaf
      ∧ (LogStructFields RangeOrder.insertion (.struct exampleClash)).entries
          = [("x", .prim (.int 2))]
      ∧ (LogStructFields RangeOrder.insertion (.struct exampleClash)).entries.get?
          (dotted ["x"]) ≠ some (.prim (.int 1)))
    ∧ (FieldAt exampleReferences ["P"] (.ptr (.prim (.int 5)))
      ∧ (Value.ptr (.prim (.int 5))).IsLeaf
      ∧ (LogStructFields RangeOrder.insertion (.struct exampleReferences)).entries.get?
          (dotted ["P"]) = some (.prim (.int 5))
      ∧ (LogStructFields RangeOrder.insertion (.struct exampleReferences)).entries.get?
          (dotted ["P"]) ≠ some (.ptr (.prim (.int 5)))) := by
  refine ⟨⟨?_, by decide, by decide, by decide⟩, ⟨?_, by decide, by decide, by decide⟩⟩
  · exact FieldAt.here exampleClash ⟨"A", "x", true, .prim (.int 1)⟩ (by decide) rfl
  · exact FieldAt.here exampleReferences ⟨"P", "", true, .ptr (.prim (.int 5))⟩
      (by decide) rfl

theorem Value.kind_ne_struct_of_isLeaf {v : Value} (h : v.IsLeaf) : v.Kind ≠ .Struct := by
  intro hk
  rw [Value.eq_struct_of_kind hk] at h
  exact h.1 rfl

/-- C3 (amended): every accessible leaf field of the record, reached through
accessible fields of record type only, is one of the emitted fields, under the
key that joins with "." the resolved labels on its path and with its emitted
value (for a field of pointer type nil when the reference is null and the
target otherwise; for any other field what the field holds, as it is); and an
emitted field whose key no later emitted field (in declaration order, depth
first) writes appears exactly once in the result, under that key and with that
value. -/
theorem C3_leaf_fields (ord : RangeOrder) (fs : List Field) :
    (∀ (path : List String) (v : Value), FieldAt fs path v → v.IsLeaf →
        (dotted path, v.emitted) ∈ emittedFields fs)
    ∧ (∀ (before after : Entries) (k : String) (x : Value),
        emittedFields fs = before ++ (k, x) :: after → k ∉ after.keys →
        (LogStructFields ord (.struct fs)).entries.get? k = some x
          ∧ (LogStructFields ord (.struct fs)).entries.keys.count k = 1) := by
  constructor
  · intro path v h hleaf
    exact mem_emittedFields_of_fieldAt h (Value.kind_ne_struct_of_isLeaf hleaf)
  · intro before after k x hsplit hlast
    have h : (LogStructFields ord (.struct fs)).entries.get? k = some x := by
      rw [get?_LogStructFields_struct, hsplit, lastWrite_append]
      have : lastWrite after k = none := (lastWrite_eq_none_iff after k).2 hlast
      simp [lastWrite, this]
    have nd := nodup_keys_LogStructFields ord (.struct fs)
    exact ⟨h, Entries.count_keys_of_get?_eq_some nd h⟩

theorem C3_leaf_fields_witness :
    (dotted ["Inner", "X"], (Value.prim (.int 3)).emitted) ∈ emittedFields exampleNested
      ∧ (LogStructFields RangeOrder.reversed (.struct exampleNested)).entries.get? "Inner.X"
          = some (.prim (.int 3))
      ∧ (LogStructFields RangeOrder.reversed (.struct exampleNested)).entries.keys.count
          "Inner.X" = 1 :=
  ⟨(C3_leaf_fields RangeOrder.reversed exampleNested).1 ["Inner", "X"] (.prim (.int 3))
      (FieldAt.inside exampleNested
        ⟨"Inner", "", true,
          .struct [⟨"X", "", true, .prim (.int 3)⟩, ⟨"y", "", false, .prim (.int 4)⟩]⟩
        [⟨"X", "", true, .prim (.int 3)⟩, ⟨"y", "", false, .prim (.int 4)⟩] "X" []
        (.prim (.int 3)) (by decide) rfl rfl
        (FieldAt.here _ ⟨"X", "", true, .prim (.int 3)⟩ (by decide) rfl))
      (by decide),
    (C3_leaf_fields RangeOrder.reversed exampleNested).2 [] [("p", .prim (.int 5))]
      "Inner.X" (.prim (.int 3)) (by decide) (by decide)⟩

theorem label_ne_label_dot (label k : String) : label ≠ label ++ "." ++ k := by
  intro h
  have h' := congrArg String.length h
  simp only [String.length_append] at h'
  have : ".".length = 1 := rfl
  omega

theorem not_mem_keys_underLabel (label : String) (es : Entries) :
    label ∉ (underLabel label es).keys := by
  rw [keys_underLabel]
  intro hm
  obtain ⟨k, _, hk⟩ := List.mem_map.1 hm
  exact label_ne_label_dot label k hk.symm

theorem Entries.keys_append (a b : Entries) : Entries.keys (a ++ b) = a.keys ++ b.keys := by
  simp [Entries.keys]

/-- C2 (as worded) fails: in exampleParentClash the exported field P is a
record with exported sub-fields labelled "a" and "b", yet the result has a key
"P", written by the sibling Q tagged "P"; in exampleDeep the exported
sub-field labelled "a" of P is itself a record, so the result has the key
"P.a.X" and no key "P.a"; and in exampleIfaceRecord the exported field I holds
a record with exported sub-fields X and Y but is declared `interface{}`, so the
record is stored whole under "I" and there is no key "I.X" or "I.Y". -/
theorem C2_counterexample :
    ((LogStructFields RangeOrder.insertion (.struct exampleParentClash)).entries
        = [("P.a", .prim (.int 1)), ("P.b", .prim (.int 2)), ("P", .prim (.int 5))]
      ∧ "P" ∈ (LogStructFields RangeOrder.insertion (.struct exampleParentClash)).entries.keys)
    ∧ ((LogStructFields RangeOrder.insertion (.struct exampleDeep)).entries
        = [("P.a.X", .prim (.int 1)), ("P.b", .prim (.int 2))]
      ∧ "P.a" ∉ (LogStructFields RangeOrder.insertion (.struct exampleDeep)).entries.keys)
    ∧ ((LogStructFields RangeOrder.insertion (.struct exampleIfaceRecord)).entries
        = [("I", .struct [⟨"X", "", true, .prim (.int 1)⟩, ⟨"Y", "", true, .prim (.int 2)⟩])]
      ∧ "I" ∈ (LogStructFields RangeOrder.insertion (.struct exampleIfaceRecord)).entries.keys
      ∧ "I.X" ∉ (LogStructFields RangeOrder.insertion (.struct exampleIfaceRecord)).entries.keys
      ∧ "I.Y" ∉ (LogStructFields RangeOrder.insertion (.struct exampleIfaceRecord)).entries.keys) := by
  decide

/-- C2 (amended): when a record holds an exported field with resolved label p,
declared with a record type, whose value is a record with exported sub-fields
labelled a and b that are not themselves of record type, the result has the
keys p.a and p.b, and it has a key equal to p alone only when the other fields
of the record write it, that is, exactly when the record without this field is
flattened to a mapping with the key p. -/
theorem C2_nested_keys (ord ord' : RangeOrder) (pre post sub : List Field) (f a b : Field)
    (hexp : f.exported = true) (hsub : f.value = .struct sub)
    (ha : a ∈ sub) (hae : a.exported = true) (hak : a.value.Kind ≠ .Struct)
    (hb : b ∈ sub) (hbe : b.exported = true) (hbk : b.value.Kind ≠ .Struct) :
    (f.label ++ "." ++ a.label)
        ∈ (LogStructFields ord (.struct (pre ++ f :: post))).entries.keys
      ∧ (f.label ++ "." ++ b.label)
        ∈ (LogStructFields ord (.struct (pre ++ f :: post))).entries.keys
      ∧ (f.label ∈ (LogStructFields ord (.struct (pre ++ f :: post))).entries.keys
        ↔ f.label ∈ (LogStructFields ord' (.struct (pre ++ post))).entries.keys) := by
  have hkind : f.value.Kind = .Struct := by rw [hsub]; rfl
  have hfields : f.value.fields = sub := by rw [hsub]; rfl
  have hmem : f ∈ pre ++ f :: post := by simp
  refine ⟨?_, ?_, ?_⟩
  · rw [mem_keys_LogStructFields_struct]
    exact List.mem_map_of_mem Prod.fst
      (mem_emittedFields_of_mem_sub hmem hexp hsub (mem_emittedFields_of_mem ha hae hak))
  · rw [mem_keys_LogStructFields_struct]
    exact List.mem_map_of_mem Prod.fst
      (mem_emittedFields_of_mem_sub hmem hexp hsub (mem_emittedFields_of_mem hb hbe hbk))
  · rw [mem_keys_LogStructFields_struct, mem_keys_LogStructFields_struct,
      emittedFields_append, emittedFields_cons, emittedFields_append]
    simp only [hexp, hkind, hfields, Bool.true_eq_false, if_false, if_true,
      Entries.keys_append, List.mem_append]
    have := not_mem_keys_underLabel f.label (emittedFields sub)
    tauto

theorem C2_nested_keys_witness :
    "P.a" ∈ (LogStructFields RangeOrder.reversed (.struct ([] ++
        Field.mk "P" "" true
          (.struct [⟨"A", "a", true, .prim (.int 1)⟩, ⟨"B", "b", true, .prim (.int 2)⟩]) ::
        [Field.mk "Q" "q" true (.prim (.int 5))]))).entries.keys
      ∧ "P.b" ∈ (LogStructFields RangeOrder.reversed (.struct ([] ++
        Field.mk "P" "" true
          (.struct [⟨"A", "a", true, .prim (.int 1)⟩, ⟨"B", "b", true, .prim (.int 2)⟩]) ::
        [Field.mk "Q" "q" true (.prim (.int 5))]))).entries.keys
      ∧ "P" ∉ (LogStructFields RangeOrder.reversed (.struct ([] ++
        Field.mk "P" "" true
          (.struct [⟨"A", "a", true, .prim (.int 1)⟩, ⟨"B", "b", true, .prim (.int 2)⟩]) ::
        [Field.mk "Q" "q" true (.prim (.int 5))]))).entries.keys :=
  have h := C2_nested_keys RangeOrder.reversed RangeOrder.insertion []
    [Field.mk "Q" "q" true (.prim (.int 5))]
    [⟨"A", "a", true, .prim (.int 1)⟩, ⟨"B", "b", true, .prim (.int 2)⟩]
    (Field.mk "P" "" true
      (.struct [⟨"A", "a", true, .prim (.int 1)⟩, ⟨"B", "b", true, .prim (.int 2)⟩]))
    ⟨"A", "a", true, .prim (.int 1)⟩ ⟨"B", "b", true, .prim (.int 2)⟩
    rfl rfl (by decide) rfl (by decide) (by decide) rfl (by decide)
  ⟨h.1, h.2.1, fun hp => absurd (h.2.2.1 hp) (by decide)⟩

/-! ## Unexported fields -/

theorem emittedFields_filter_exported (fs : List Field) :
    emittedFields (fs.filter (fun f => f.exported)) = emittedFields fs := by
  induction fs with
  | nil => rfl
  | cons f rest ih =>
    cases he : f.exported
    · rw [List.filter_cons_of_neg (by simp [he]), ih, emittedFields_cons]
      simp [he]
    · rw [List.filter_cons_of_pos (by simp [he]), emittedFields_cons, emittedFields_cons, ih]

theorem accessibleFields_cons (f : Field) (rest : List Field) :
    accessibleFields (f :: rest) =
      if f.exported = true then
        Field.mk f.name f.tag f.exported (accessibleValue f.value) :: accessibleFields rest
      else accessibleFields rest := by
  obtain ⟨name, tag, exported, value⟩ := f
  rw [accessibleFields]
  rfl

theorem accessibleValue_of_kind {v : Value} (h : v.Kind = .Struct) :
    accessibleValue v = .struct (accessibleFields v.fields) := by
  have hv := Value.eq_struct_of_kind h
  conv_lhs => rw [hv]
  rw [accessibleValue]

theorem accessibleValue_of_not_kind {v : Value} (h : v.Kind ≠ .Struct) :
    accessibleValue v = v := by
  cases v with
  | struct fs => exact absurd rfl h
  | _ => simp [accessibleValue]

theorem emittedFields_accessibleFields (fs : List Field) :
    emittedFields (accessibleFields fs) = emittedFields fs := by
  match fs with
  | [] => rw [accessibleFields]
  | ⟨name, tag, exported, value⟩ :: rest =>
    rw [accessibleFields_cons]
    cases exported
    · rw [if_neg (by simp [Field.exported]), emittedFields_accessibleFields rest,
        emittedFields_cons]
      simp [Field.exported]
    · rw [if_pos (by simp [Field.exported]), emittedFields_cons, emittedFields_cons,
        emittedFields_accessibleFields rest]
      congr 1
      by_cases hs : value.Kind = .Struct
      · have hlt := sizeOf_fields_lt (f := ⟨name, tag, true, value⟩) hs rest
        have ih := emittedFields_accessibleFields value.fields
        simp only [Field.value] at hlt
        have hk : (Value.struct (accessibleFields value.fields)).Kind = .Struct := rfl
        have hf : (Value.struct (accessibleFields value.fields)).fields
            = accessibleFields value.fields := rfl
        simp [Field.exported, Field.value, Field.label, Field.tag, Field.name, hs,
          accessibleValue_of_kind hs, hk, hf, ih]
      · simp [Field.exported, Field.value, Field.label, Field.tag, Field.name, hs,
          accessibleValue_of_not_kind hs]
termination_by sizeOf fs
decreasing_by
  all_goals simp_wf
  all_goals first
    | omega
    | exact hlt

/-- C8: unexported fields do not influence the result. The record and the
record with all its unexported fields removed are flattened to the same mapping
(the same entries up to order, hence the same lookups and the same length),
whatever the removed fields hold and also when one of them is a record with
exported sub-fields; the same holds when the unexported fields of the records
held by exported fields are removed as well, and for a reference to the record. -/
theorem C8_unexported_ignored (ord ord' : RangeOrder) (fs : List Field) :
    ((LogStructFields ord (.struct fs)).entries.Perm
        (LogStructFields ord' (.struct (fs.filter (fun f => f.exported)))).entries
      ∧ (∀ k, (LogStructFields ord (.struct fs)).entries.get? k
          = (LogStructFields ord' (.struct (fs.filter (fun f => f.exported)))).entries.get? k)
      ∧ (LogStructFields ord (.struct fs)).len
          = (LogStructFields ord' (.struct (fs.filter (fun f => f.exported)))).len)
    ∧ ((LogStructFields ord (.struct fs)).entries.Perm
        (LogStructFields ord' (.struct (accessibleFields fs))).entries
      ∧ (∀ k, (LogStructFields ord (.struct fs)).entries.get? k
          = (LogStructFields ord' (.struct (accessibleFields fs))).entries.get? k))
    ∧ (LogStructFields ord (.ptr (.struct fs))).entries.Perm
        (LogStructFields ord' (.ptr (.struct (fs.filter (fun f => f.exported))))).entries := by
  have p₁ := perm_fieldsLoop_of_emittedFields_eq ord ord' 0 0
    (emittedFields_filter_exported fs).symm
  have p₂ := perm_fieldsLoop_of_emittedFields_eq ord ord' 0 0
    (emittedFields_accessibleFields fs).symm
  simp only [LogStructFields_struct, LogStructFields_ptr_struct, GoMap.entries, GoMap.len]
  refine ⟨⟨p₁, ?_, List.Perm.length_eq p₁⟩, ⟨p₂, ?_⟩, p₁⟩
  · intro k
    rw [get?_fieldsLoop, get?_fieldsLoop, emittedFields_filter_exported]
  · intro k
    rw [get?_fieldsLoop, get?_fieldsLoop, emittedFields_accessibleFields]

theorem LogStructFields_exampleHidden :
    LogStructFields RangeOrder.insertion (.struct exampleHidden)
        = .made [("N", .prim (.int 1))]
      ∧ exampleHidden.filter (fun f => f.exported)
        = [⟨"N", "", true, .prim (.int 1)⟩,
           ⟨"Empty", "", true, .struct [⟨"z", "", false, .prim (.int 3)⟩]⟩]
      ∧ accessibleFields exampleHidden
        = [⟨"N", "", true, .prim (.int 1)⟩, ⟨"Empty", "", true, .struct []⟩] := by
  decide

/-! ## Records without accessible fields -/

theorem fieldsLoop_of_none_exported (ord : RangeOrder) (i : Nat) (fs : List Field)
    (result : Entries) (h : ∀ g ∈ fs, g.exported = false) :
    fieldsLoop ord i fs result = result := by
  induction fs generalizing i with
  | nil => rw [fieldsLoop_nil]
  | cons f rest ih =>
    rw [fieldsLoop_cons, if_pos (h f (List.mem_cons_self _ _))]
    exact ih _ (fun g hg => h g (List.mem_cons_of_mem _ hg))

theorem emittedFields_of_none_exported (fs : List Field) (h : ∀ g ∈ fs, g.exported = false) :
    emittedFields fs = [] := by
  induction fs with
  | nil => rfl
  | cons f rest ih =>
    rw [emittedFields_cons, if_pos (h f (List.mem_cons_self _ _)),
      ih (fun g hg => h g (List.mem_cons_of_mem _ hg))]
    rfl

/-- C10: a record-typed field with no exported sub-field contributes nothing:
the loop leaves the map as it is when it visits the field, so the result is the
same mapping as for the record without the field (no key equal to the label is
written by it). In particular a record with no exported field, or a reference
to one, is flattened to the empty mapping. -/
theorem C10_nothing_accessible (ord ord' : RangeOrder) (pre post sub fs : List Field)
    (f : Field) (hsub : ∀ g ∈ sub, g.exported = false) (hf : f.value = .struct sub)
    (hfs : ∀ g ∈ fs, g.exported = false) :
    (∀ (i : Nat) (rest : List Field) (result : Entries),
        fieldsLoop ord i (f :: rest) result = fieldsLoop ord (i + 1) rest result)
      ∧ (LogStructFields ord (.struct (pre ++ f :: post))).entries.Perm
          (LogStructFields ord' (.struct (pre ++ post))).entries
      ∧ LogStructFields ord (.struct fs) = .made []
      ∧ LogStructFields ord (.ptr (.struct fs)) = .made []
      ∧ (LogStructFields ord (.ptr (.struct fs))).len = 0 := by
  have hkind : f.value.Kind = .Struct := by rw [hf]; rfl
  have hfields : f.value.fields = sub := by rw [hf]; rfl
  refine ⟨?_, ?_, ?_, ?_, ?_⟩
  · intro i rest result
    rw [fieldsLoop_cons]
    by_cases he : f.exported = false
    · rw [if_pos he]
    · rw [if_neg he, if_pos hkind, hfields, fieldsLoop_of_none_exported _ _ _ _ hsub,
        order_nil]
      rfl
  · rw [LogStructFields_struct, LogStructFields_struct]
    apply perm_fieldsLoop_of_emittedFields_eq
    rw [emittedFields_append, emittedFields_append, emittedFields_cons, hkind, hfields,
      emittedFields_of_none_exported sub hsub]
    simp [underLabel]
  · rw [LogStructFields_struct, fieldsLoop_of_none_exported _ _ _ _ hfs]
  · rw [LogStructFields_ptr_struct, fieldsLoop_of_none_exported _ _ _ _ hfs]
  · rw [LogStructFields_ptr_struct, fieldsLoop_of_none_exported _ _ _ _ hfs]
    rfl

theorem C10_nothing_accessible_witness :
    (LogStructFields RangeOrder.insertion (.struct ([Field.mk "N" "" true (.prim (.int 1))] ++
        Field.mk "Empty" "" true (.struct [⟨"z", "", false, .prim (.int 3)⟩]) :: []))).entries.Perm
        (LogStructFields RangeOrder.reversed
          (.struct ([Field.mk "N" "" true (.prim (.int 1))] ++ []))).entries
      ∧ LogStructFields RangeOrder.insertion
          (.ptr (.struct [⟨"z", "", false, .prim (.int 3)⟩])) = .made [] :=
  have h := C10_nothing_accessible RangeOrder.insertion RangeOrder.reversed
    [Field.mk "N" "" true (.prim (.int 1))] [] [⟨"z", "", false, .prim (.int 3)⟩]
    [⟨"z", "", false, .prim (.int 3)⟩]
    (Field.mk "Empty" "" true (.struct [⟨"z", "", false, .prim (.int 3)⟩]))
    (by decide) rfl (by decide)
  ⟨h.2.1, h.2.2.2.1⟩

/-! ## The example of the specification -/

theorem order_singleton (ord : RangeOrder) (pos : List Nat) (e : String × Value) :
    ord.order pos [e] = [e] :=
  List.perm_singleton.1 (ord.perm pos [e])

/-- C13: the record with ID (tag "id") = 7, Name = "a" and Inner.X = 3, all fields
exported, is flattened to exactly the mapping with "id" -> 7, "Name" -> "a" and
"Inner.X" -> 3, whatever the iteration order, also behind a reference. -/
theorem C13_spec_example (ord : RangeOrder) :
    LogStructFields ord (.struct exampleSpec)
        = .made [("id", .prim (.int 7)), ("Name", .prim (.str "a")),
            ("Inner.X", .prim (.int 3))]
      ∧ LogStructFields ord (.ptr (.struct exampleSpec))
        = .made [("id", .prim (.int 7)), ("Name", .prim (.str "a")),
            ("Inner.X", .prim (.int 3))]
      ∧ (LogStructFields ord (.struct exampleSpec)).len = 3 := by
  have inner : fieldsLoop (ord.sub 2) 0 [⟨"X", "", true, .prim (.int 3)⟩] []
      = [("X", .prim (.int 3))] := by
    rw [fieldsLoop_cons, if_neg (by decide), if_neg (by decide), fieldsLoop_nil]
    rfl
  have loop : fieldsLoop ord 0 exampleSpec []
      = [("id", .prim (.int 7)), ("Name", .prim (.str "a")), ("Inner.X", .prim (.int 3))] := by
    unfold exampleSpec
    rw [fieldsLoop_cons, if_neg (by decide), if_neg (by decide),
      fieldsLoop_cons, if_neg (by decide), if_neg (by decide),
      fieldsLoop_cons, if_neg (by decide), if_pos (by decide), fieldsLoop_nil]
    have hf : (Field.mk "Inner" "" true (.struct [⟨"X", "", true, .prim (.int 3)⟩])).value.fields
        = [⟨"X", "", true, .prim (.int 3)⟩] := rfl
    rw [hf, inner, order_singleton]
    rfl
  rw [LogStructFields_struct, LogStructFields_ptr_struct, loop]
  exact ⟨rfl, rfl, rfl⟩

/-! ## Reference fields -/

/-- C14 (as worded) fails: the exported field K of exampleIfaceReferences holds
a non-null reference to a reference to 5 and is declared `interface{}`; it is
not dereferenced at all, the value stored under "K" is the outer reference and
not the inner one. -/
theorem C14_counterexample :
    exampleIfaceReferences.map Field.label = ["I", "J", "K"]
      ∧ exampleIfaceReferences.map Field.exported = [true, true, true]
      ∧ exampleIfaceReferences.map (fun f => f.value.Interface)
          = [.ptr (.prim (.int 5)), .nilPtr, .ptr (.ptr (.prim (.int 5)))]
      ∧ (LogStructFields RangeOrder.reversed (.struct exampleIfaceReferences)).entries.get?
          "K" = some (.ptr (.ptr (.prim (.int 5))))
      ∧ (LogStructFields RangeOrder.reversed (.struct exampleIfaceReferences)).entries.get?
          "K" ≠ some (.ptr (.prim (.int 5))) := by
  decide

/-- C14 (amended): an exported field declared with a pointer type and holding a
non-null reference is dereferenced one level and the target is stored as it is
under the field's label, whatever the target is (the inner reference for a
reference to a reference, the whole record for a reference to a record):
visiting the field is the single assignment of the target to the label, so the
field writes no key label.k, and the target is what is found under the label
unless a later field writes that key. -/
theorem C14_reference_target (ord ord' : RangeOrder) (pre post : List Field) (f : Field)
    (t : Value) (hexp : f.exported = true) (hval : f.value = .ptr t) :
    (∀ (i : Nat) (rest : List Field) (result : Entries),
        fieldsLoop ord i (f :: rest) result
          = fieldsLoop ord (i + 1) rest (result.set f.label t.Interface))
      ∧ LogStructFields ord (.struct [f]) = .made [(f.label, t.Interface)]
      ∧ (∀ k, (f.label ++ "." ++ k)
            ∈ (LogStructFields ord (.struct (pre ++ f :: post))).entries.keys
          ↔ (f.label ++ "." ++ k)
            ∈ (LogStructFields ord' (.struct (pre ++ post))).entries.keys)
      ∧ ((LogStructFields ord' (.struct post)).entries.get? f.label = none →
          (LogStructFields ord (.struct (pre ++ f :: post))).entries.get? f.label
            = some t.Interface) := by
  have hkind : f.value.Kind ≠ .Struct := by rw [hval]; simp [Value.Kind]
  have hem : f.value.emitted = t.Interface := by rw [hval]; rfl
  have step : ∀ (i : Nat) (rest : List Field) (result : Entries),
      fieldsLoop ord i (f :: rest) result
        = fieldsLoop ord (i + 1) rest (result.set f.label t.Interface) := by
    intro i rest result
    rw [fieldsLoop_cons, if_neg (by simp [hexp]), if_neg hkind, hem]
  refine ⟨step, ?_, ?_, ?_⟩
  · rw [LogStructFields_struct, step, fieldsLoop_nil]
    rfl
  · intro k
    rw [mem_keys_LogStructFields_struct, mem_keys_LogStructFields_struct,
      emittedFields_append, emittedFields_cons, emittedFields_append]
    have hne : ¬ f.label ++ "." ++ k = f.label := fun h => label_ne_label_dot f.label k h.symm
    simp [hexp, hkind, Entries.keys_append, Entries.keys, hne]
  · intro hlater
    rw [get?_of_not_written_later ord ord' pre post f hexp hkind hlater, hem]

theorem C14_reference_target_witness :
    LogStructFields RangeOrder.insertion
        (.struct [Field.mk "RR" "" true (.ptr (.ptr (.prim (.int 5))))])
        = .made [("RR", .ptr (.prim (.int 5)))]
      ∧ LogStructFields RangeOrder.insertion
        (.struct [Field.mk "RS" "" true (.ptr (.struct [⟨"X", "", true, .prim (.int 1)⟩]))])
        = .made [("RS", .struct [⟨"X", "", true, .prim (.int 1)⟩])] :=
  ⟨(C14_reference_target RangeOrder.insertion RangeOrder.insertion [] []
      (Field.mk "RR" "" true (.ptr (.ptr (.prim (.int 5))))) (.ptr (.prim (.int 5)))
      rfl rfl).2.1,
   (C14_reference_target RangeOrder.insertion RangeOrder.insertion [] []
      (Field.mk "RS" "" true (.ptr (.struct [⟨"X", "", true, .prim (.int 1)⟩])))
      (.struct [⟨"X", "", true, .prim (.int 1)⟩]) rfl rfl).2.1⟩

theorem LogStructFields_exampleTargets :
    LogStructFields RangeOrder.reversed (.struct exampleTargets)
      = .made [("RR", .ptr (.prim (.int 5))),
          ("RS", .struct [⟨"X", "", true, .prim (.int 1)⟩])] := by
  decide

/-! ## Independence of the iteration order -/

/-- Merging the entries of a nested result under a label gives the same mapping
whatever the order in which they are visited. -/
theorem perm_merge_of_perm (label : String) {es l₁ l₂ : Entries} (result : Entries)
    (nd : es.keys.Nodup) (p₁ : l₁.Perm es) (p₂ : l₂.Perm es) (nr : result.keys.Nodup) :
    (l₁.foldl (fun r kv => Entries.set r (label ++ "." ++ kv.1) kv.2) result).Perm
      (l₂.foldl (fun r kv => Entries.set r (label ++ "." ++ kv.1) kv.2) result) := by
  rw [foldl_set_underLabel, foldl_set_underLabel]
  apply Entries.perm_of_get?_eq (nodup_keys_applyWrites _ nr) (nodup_keys_applyWrites _ nr)
  intro k
  rw [get?_applyWrites, get?_applyWrites]
  congr 1
  apply lastWrite_underLabel_congr
  intro k'
  have n₁ : l₁.keys.Nodup := (List.Perm.nodup_iff (List.Perm.map Prod.fst p₁)).2 nd
  have n₂ : l₂.keys.Nodup := (List.Perm.nodup_iff (List.Perm.map Prod.fst p₂)).2 nd
  rw [lastWrite_eq_get? n₁, lastWrite_eq_get? n₂, Entries.get?_eq_of_perm n₁ p₁,
    Entries.get?_eq_of_perm n₂ p₂]

theorem get?_LogStructFields_order (ord ord' : RangeOrder) (v : Value) (k : String) :
    (LogStructFields ord v).entries.get? k = (LogStructFields ord' v).entries.get? k := by
  rw [LogStructFields_eq ord, LogStructFields_eq ord']
  by_cases h : (if v.Kind = .Ptr then v.Elem else v).Kind ≠ .Struct
  · rw [if_pos h, if_pos h]
  · rw [if_neg h, if_neg h]
    simp only [GoMap.entries]
    rw [get?_fieldsLoop, get?_fieldsLoop]

/-- C17: the result does not depend on the order in which the nested results
are iterated. For any two choices of iteration orders the two runs on the same
input return the same mapping (the same entries up to order, the same lookups,
the same length, and the nil map in the same cases); this is because the keys
of a (nested) result are pairwise distinct, prefixing with label and "." is
injective, and so merging the nested entries in any order gives the same
mapping. -/
theorem C17_order_independent (ord ord' : RangeOrder) (v : Value) :
    ((LogStructFields ord v).entries.Perm (LogStructFields ord' v).entries
      ∧ (∀ k, (LogStructFields ord v).entries.get? k
          = (LogStructFields ord' v).entries.get? k)
      ∧ (LogStructFields ord v).len = (LogStructFields ord' v).len
      ∧ (LogStructFields ord v = .nilMap ↔ LogStructFields ord' v = .nilMap))
    ∧ (LogStructFields ord v).entries.keys.Nodup
    ∧ (∀ label a b : String, label ++ "." ++ a = label ++ "." ++ b → a = b)
    ∧ (∀ (label : String) (es l₁ l₂ result : Entries),
        es.keys.Nodup → l₁.Perm es → l₂.Perm es → result.keys.Nodup →
        (l₁.foldl (fun r kv => Entries.set r (label ++ "." ++ kv.1) kv.2) result).Perm
          (l₂.foldl (fun r kv => Entries.set r (label ++ "." ++ kv.1) kv.2) result)) := by
  have p : (LogStructFields ord v).entries.Perm (LogStructFields ord' v).entries :=
    Entries.perm_of_get?_eq (nodup_keys_LogStructFields ord v)
      (nodup_keys_LogStructFields ord' v) (get?_LogStructFields_order ord ord' v)
  refine ⟨⟨p, get?_LogStructFields_order ord ord' v, List.Perm.length_eq p, ?_⟩,
    nodup_keys_LogStructFields ord v, fun label a b h => label_dot_injective label h,
    fun label es l₁ l₂ result nd p₁ p₂ nr => perm_merge_of_perm label result nd p₁ p₂ nr⟩
  rw [LogStructFields_eq ord, LogStructFields_eq ord']
  by_cases h : (if v.Kind = .Ptr then v.Elem else v).Kind ≠ .Struct
  · rw [if_pos h, if_pos h]
  · rw [if_neg h, if_neg h]
    simp

theorem C17_order_independent_witness :
    (LogStructFields RangeOrder.insertion (.struct exampleParentClash)).entries.Perm
        (LogStructFields RangeOrder.reversed (.struct exampleParentClash)).entries
      ∧ (LogStructFields RangeOrder.insertion (.struct exampleParentClash)).entries
        = [("P.a", .prim (.int 1)), ("P.b", .prim (.int 2)), ("P", .prim (.int 5))]
      ∧ (LogStructFields RangeOrder.reversed (.struct exampleParentClash)).entries
        = [("P.b", .prim (.int 2)), ("P.a", .prim (.int 1)), ("P", .prim (.int 5))] :=
  ⟨(C17_order_independent RangeOrder.insertion RangeOrder.reversed
      (.struct exampleParentClash)).1.1, by decide, by decide⟩

/-! ## Every entry comes from a field -/

theorem FieldAt.mono {fs fs' : List Field} {path : List String} {v : Value}
    (hsub : ∀ f, f ∈ fs → f ∈ fs') (h : FieldAt fs path v) : FieldAt fs' path v := by
  cases h with
  | here _ f hm hexp => exact FieldAt.here fs' f (hsub f hm) hexp
  | inside _ f sub l path _ hm hexp hval hrest =>
    exact FieldAt.inside fs' f sub l path v (hsub f hm) hexp hval hrest

theorem FieldAt.path_ne_nil {fs : List Field} {path : List String} {v : Value}
    (h : FieldAt fs path v) : ∃ l rest, path = l :: rest := by
  cases h with
  | here _ f hm hexp => exact ⟨_, _, rfl⟩
  | inside _ f sub l path _ hm hexp hval hrest => exact ⟨_, _, rfl⟩

theorem mem_of_lastWrite_eq_some {ws : Entries} {k : String} {x : Value}
    (h : lastWrite ws k = some x) : (k, x) ∈ ws := by
  induction ws with
  | nil => simp [lastWrite] at h
  | cons e rest ih =>
    obtain ⟨k₀, v₀⟩ := e
    simp only [lastWrite] at h
    cases hr : lastWrite rest k with
    | some w =>
      rw [hr] at h
      simp at h
      exact List.mem_cons_of_mem _ (ih (h ▸ hr))
    | none =>
      rw [hr] at h
      by_cases h₀ : k₀ = k
      · simp [h₀] at h
        simp [h₀, h]
      · simp [h₀] at h

/-- What an emitted field is: written by an exported non-record field under its
label, or by an exported record field under its label, "." and a key emitted by
the record it holds. -/
theorem mem_emittedFields_cases {fs : List Field} {k : String} {x : Value}
    (h : (k, x) ∈ emittedFields fs) :
    ∃ f ∈ fs, f.exported = true ∧
      ((f.value.Kind ≠ .Struct ∧ k = f.label ∧ x = f.value.emitted)
        ∨ (f.value.Kind = .Struct
          ∧ ∃ k', k = f.label ++ "." ++ k' ∧ (k', x) ∈ emittedFields f.value.fields)) := by
  induction fs with
  | nil => simp [emittedFields] at h
  | cons g rest ih =>
    rw [emittedFields_cons] at h
    rcases List.mem_append.1 h with h | h
    · by_cases he : g.exported = false
      · simp [he] at h
      · have he' : g.exported = true := by simpa using he
        refine ⟨g, List.mem_cons_self _ _, he', ?_⟩
        by_cases hs : g.value.Kind = .Struct
        · rw [if_neg he, if_pos hs] at h
          obtain ⟨⟨k', x'⟩, hm, heq⟩ := List.mem_map.1 h
          simp only [Prod.mk.injEq] at heq
          right
          exact ⟨hs, k', heq.1.symm, heq.2 ▸ hm⟩
        · rw [if_neg he, if_neg hs] at h
          simp only [List.mem_singleton, Prod.mk.injEq] at h
          left
          exact ⟨hs, h.1, h.2⟩
    · obtain ⟨f, hm, rest'⟩ := ih h
      exact ⟨f, List.mem_cons_of_mem _ hm, rest'⟩

theorem sizeOf_fields_lt_of_mem {fs : List Field} {f : Field} (hm : f ∈ fs)
    (h : f.value.Kind = .Struct) : sizeOf f.value.fields < sizeOf fs := by
  induction fs with
  | nil => simp at hm
  | cons g rest ih =>
    rcases List.mem_cons.1 hm with e | hm'
    · subst e
      exact sizeOf_fields_lt h rest
    · have := ih hm'
      simp only [List.cons.sizeOf_spec]
      omega

/-- Every emitted field is an accessible non-record field, with its dotted path
as key and its emitted value. -/
theorem fieldAt_of_mem_emittedFields (fs : List Field) (k : String) (x : Value)
    (h : (k, x) ∈ emittedFields fs) :
    ∃ path v, FieldAt fs path v ∧ v.Kind ≠ .Struct ∧ dotted path = k ∧ v.emitted = x := by
  obtain ⟨f, hm, hexp, hcase⟩ := mem_emittedFields_cases h
  rcases hcase with ⟨hk, hkey, hx⟩ | ⟨hs, k', hkey, hsub⟩
  · exact ⟨[f.label], f.value, FieldAt.here fs f hm hexp, hk, hkey.symm, hx.symm⟩
  · have hlt := sizeOf_fields_lt_of_mem hm hs
    obtain ⟨path, v, hat, hk, hdot, hx⟩ := fieldAt_of_mem_emittedFields f.value.fields k' x hsub
    obtain ⟨l, rest, rfl⟩ := FieldAt.path_ne_nil hat
    refine ⟨f.label :: l :: rest, v,
      FieldAt.inside fs f f.value.fields l rest v hm hexp (Value.eq_struct_of_kind hs) hat,
      hk, ?_, hx⟩
    rw [hkey, ← hdot]
    rfl
termination_by sizeOf fs
decreasing_by exact hlt

/-- C16 (as worded) fails: in exampleIfaceRecord the only entry of the result
is "I" with a record, and every accessible field that can be reached holds a
record, so no accessible non-record field accounts for it; in
exampleIfaceReferences the entry "J" holds a typed null reference, although
every accessible field holds a reference and the rule of nil for a null
reference and the target for a non-null one never gives that value. -/
theorem C16_counterexample :
    ((LogStructFields RangeOrder.insertion (.struct exampleIfaceRecord)).entries
        = [("I", .struct [⟨"X", "", true, .prim (.int 1)⟩, ⟨"Y", "", true, .prim (.int 2)⟩])]
      ∧ ∀ path w, FieldAt exampleIfaceRecord path w → w.Interface.Kind = .Struct)
    ∧ (("J", Value.nilPtr)
        ∈ (LogStructFields RangeOrder.insertion (.struct exampleIfaceReferences)).entries
      ∧ ∀ path w, FieldAt exampleIfaceReferences path w →
          w.Interface.Kind = .Ptr
            ∧ (if w.Interface.IsNil = true then Value.nil else w.Interface.Elem)
                ≠ .nilPtr) := by
  refine ⟨⟨by decide, ?_⟩, by decide, ?_⟩
  · intro path w h
    cases h with
    | here _ f hm hexp =>
      simp only [exampleIfaceRecord, List.mem_singleton] at hm
      subst hm
      decide
    | inside _ f sub l path _ hm hexp hval hrest =>
      simp only [exampleIfaceRecord, List.mem_singleton] at hm
      subst hm
      cases hval
  · intro path w h
    cases h with
    | here _ f hm hexp =>
      simp only [exampleIfaceReferences, List.mem_cons, List.mem_singleton,
        List.not_mem_nil, or_false] at hm
      rcases hm with rfl | rfl | rfl <;> decide
    | inside _ f sub l path _ hm hexp hval hrest =>
      simp only [exampleIfaceReferences, List.mem_cons, List.mem_singleton,
        List.not_mem_nil, or_false] at hm
      rcases hm with rfl | rfl | rfl <;> cases hval

/-- C16 (amended): the result has no spurious entries. Every entry (k, x) of
the result comes from an accessible field whose kind is not record (a field of
interface type counts, whatever it holds), reached from the root through
accessible fields of record type only, whose dot-joined path of resolved labels
is k and whose emitted value (for a field of pointer type nil for a null
reference and the target for a non-null one; for any other field what it holds,
as it is) is x; in particular k is the label of an exported top-level field
that is not of record type, or the label of an exported top-level field of
record type followed by "." and a key of the result for that record. -/
theorem C16_no_spurious_entries (ord ord' : RangeOrder) (v : Value) (k : String) (x : Value)
    (h : (k, x) ∈ (LogStructFields ord v).entries) :
    (∃ path w, FieldAt (if v.Kind = .Ptr then v.Elem else v).fields path w
        ∧ w.Kind ≠ .Struct ∧ dotted path = k ∧ w.emitted = x)
      ∧ (∃ f ∈ (if v.Kind = .Ptr then v.Elem else v).fields, f.exported = true ∧
          ((f.value.Kind ≠ .Struct ∧ k = f.label)
            ∨ (f.value.Kind = .Struct ∧ ∃ k', k = f.label ++ "." ++ k'
                ∧ k' ∈ (LogStructFields ord' f.value).entries.keys))) := by
  rw [LogStructFields_eq] at h
  by_cases hs : (if v.Kind = .Ptr then v.Elem else v).Kind ≠ .Struct
  · rw [if_pos hs] at h
    simp [GoMap.entries] at h
  · rw [if_neg hs] at h
    simp only [GoMap.entries] at h
    have nd : (fieldsLoop ord 0 (if v.Kind = .Ptr then v.Elem else v).fields []).keys.Nodup :=
      nodup_keys_fieldsLoop _ _ _ (by simp [Entries.keys])
    have hget := Entries.get?_eq_some_of_mem nd h
    rw [get?_fieldsLoop] at hget
    simp only [Entries.get?, Option.or_none] at hget
    have hmem : (k, x) ∈ emittedFields (if v.Kind = .Ptr then v.Elem else v).fields :=
      mem_of_lastWrite_eq_some hget
    refine ⟨fieldAt_of_mem_emittedFields _ k x hmem, ?_⟩
    obtain ⟨f, hm, hexp, hcase⟩ := mem_emittedFields_cases hmem
    refine ⟨f, hm, hexp, ?_⟩
    rcases hcase with ⟨hk, hkey, _⟩ | ⟨hks, k', hkey, hsub⟩
    · exact Or.inl ⟨hk, hkey⟩
    · refine Or.inr ⟨hks, k', hkey, ?_⟩
      rw [Value.eq_struct_of_kind hks, mem_keys_LogStructFields_struct]
      exact List.mem_map_of_mem Prod.fst hsub

theorem C16_no_spurious_entries_witness :
    ("Inner.X", Value.prim (.int 3))
        ∈ (LogStructFields RangeOrder.reversed (.struct exampleNested)).entries
      ∧ ∃ path w, FieldAt exampleNested path w ∧ w.Kind ≠ .Struct
          ∧ dotted path = "Inner.X" ∧ w.emitted = .prim (.int 3) :=
  ⟨by decide, (C16_no_spurious_entries RangeOrder.reversed RangeOrder.insertion
    (.struct exampleNested) "Inner.X" (.prim (.int 3)) (by decide)).1⟩

/-! ## Distinct labels give distinct keys -/

theorem takeWhile_not_dot (l rest : List Char) (h : '.' ∉ l) :
    (l ++ '.' :: rest).takeWhile (fun c => decide (c ≠ '.')) = l := by
  induction l with
  | nil => simp [List.takeWhile]
  | cons c cs ih =>
    simp only [List.mem_cons, not_or] at h
    have hc : decide (c ≠ '.') = true := by
      simpa using fun e : c = '.' => h.1 e.symm
    rw [List.cons_append, List.takeWhile_cons, hc, if_pos rfl, ih h.2]

theorem keyRoot_label (l : String) (h : '.' ∉ l.data) : keyRoot l = l.data := by
  unfold keyRoot
  rw [List.takeWhile_eq_self_iff]
  intro c hc
  simp only [ne_eq, decide_eq_true_eq]
  rintro rfl
  exact h hc

theorem keyRoot_label_dot (l k : String) (h : '.' ∉ l.data) :
    keyRoot (l ++ "." ++ k) = l.data := by
  unfold keyRoot
  have e : (l ++ "." ++ k).data = l.data ++ '.' :: k.data := by
    simp [String.data_append]
  rw [e, takeWhile_not_dot _ _ h]

theorem nestedLabelsOK_cons (f : Field) (rest : List Field) :
    nestedLabelsOK (f :: rest)
      = ((!f.exported || valueLabelsOK f.value) && nestedLabelsOK rest) := by
  obtain ⟨name, tag, exported, value⟩ := f
  rw [nestedLabelsOK]
  rfl

theorem valueLabelsOK_of_kind {v : Value} (h : v.Kind = .Struct) :
    valueLabelsOK v = labelsOK v.fields := by
  have hv := Value.eq_struct_of_kind h
  conv_lhs => rw [hv]
  rw [valueLabelsOK]
  rfl

theorem labelsOK_of_mem {fs : List Field} {f : Field} (h : nestedLabelsOK fs = true)
    (hm : f ∈ fs) (hexp : f.exported = true) (hs : f.value.Kind = .Struct) :
    labelsOK f.value.fields = true := by
  induction fs with
  | nil => simp at hm
  | cons g rest ih =>
    rw [nestedLabelsOK_cons, Bool.and_eq_true] at h
    rcases List.mem_cons.1 hm with e | hm'
    · subst e
      have := h.1
      rw [hexp, valueLabelsOK_of_kind hs] at this
      simpa using this
    · exact ih h.2 hm'

theorem levelLabelsOK_iff (fs : List Field) :
    levelLabelsOK fs = true ↔
      ((fs.filter (fun f => f.exported)).map Field.label).Nodup
        ∧ ∀ f ∈ fs, f.exported = true → '.' ∉ f.label.data := by
  simp only [levelLabelsOK, Bool.and_eq_true, decide_eq_true_eq, List.all_eq_true,
    List.mem_filter, and_imp]

/-- The key of an emitted field starts with the label of the exported top-level
field that writes it. -/
theorem keyRoot_of_mem_emittedFields {fs : List Field} {k : String}
    (hdots : ∀ f ∈ fs, f.exported = true → '.' ∉ f.label.data)
    (h : k ∈ (emittedFields fs).keys) :
    ∃ f ∈ fs, f.exported = true ∧ keyRoot k = f.label.data := by
  obtain ⟨⟨k₀, x⟩, hm, rfl⟩ := List.mem_map.1 h
  obtain ⟨f, hf, hexp, hcase⟩ := mem_emittedFields_cases hm
  refine ⟨f, hf, hexp, ?_⟩
  rcases hcase with ⟨_, hkey, _⟩ | ⟨_, k', hkey, _⟩
  · simp only [hkey]
    exact keyRoot_label _ (hdots f hf hexp)
  · simp only [hkey]
    exact keyRoot_label_dot _ _ (hdots f hf hexp)

theorem nodup_keys_emittedFields (fs : List Field) (h : labelsOK fs = true) :
    (emittedFields fs).keys.Nodup := by
  match fs with
  | [] => simp [emittedFields, Entries.keys]
  | f :: rest =>
    rw [labelsOK, Bool.and_eq_true, levelLabelsOK_iff, nestedLabelsOK_cons,
      Bool.and_eq_true] at h
    obtain ⟨⟨hnd, hdots⟩, hval, hnest⟩ := h
    have hdots' : ∀ g ∈ rest, g.exported = true → '.' ∉ g.label.data :=
      fun g hg => hdots g (List.mem_cons_of_mem _ hg)
    have hrest : labelsOK rest = true := by
      rw [labelsOK, Bool.and_eq_true, levelLabelsOK_iff]
      refine ⟨⟨?_, hdots'⟩, hnest⟩
      by_cases he : f.exported = true
      · rw [List.filter_cons_of_pos (by simpa using he), List.map_cons,
          List.nodup_cons] at hnd
        exact hnd.2
      · rw [List.filter_cons_of_neg (by simpa using he)] at hnd
        exact hnd
    have ihrest := nodup_keys_emittedFields rest hrest
    rw [emittedFields_cons, Entries.keys_append]
    by_cases he : f.exported = false
    · rw [if_pos he]
      simpa [Entries.keys] using ihrest
    · have he' : f.exported = true := by simpa using he
      rw [if_neg he]
      rw [List.filter_cons_of_pos (by simpa using he'), List.map_cons,
        List.nodup_cons] at hnd
      have hfdot := hdots f (List.mem_cons_self _ _) he'
      have hdisj : ∀ k, keyRoot k = f.label.data → k ∉ (emittedFields rest).keys := by
        intro k hk hmem
        obtain ⟨g, hg, hgexp, hroot⟩ := keyRoot_of_mem_emittedFields hdots' hmem
        apply hnd.1
        have : f.label = g.label := String.ext (hk.symm.trans hroot)
        rw [this]
        exact List.mem_map_of_mem Field.label
          (List.mem_filter.2 ⟨hg, by simpa using hgexp⟩)
      by_cases hs : f.value.Kind = .Struct
      · have hlt := sizeOf_fields_lt hs rest
        have hsub : labelsOK f.value.fields = true := by
          rw [he', valueLabelsOK_of_kind hs] at hval
          simpa using hval
        have ihsub := nodup_keys_emittedFields f.value.fields hsub
        rw [if_pos hs, keys_underLabel]
        refine List.Nodup.append ?_ ihrest ?_
        · exact List.Nodup.map (fun a b hab => label_dot_injective f.label hab) ihsub
        · intro k hk₁ hk₂
          obtain ⟨k', _, rfl⟩ := List.mem_map.1 hk₁
          exact hdisj _ (keyRoot_label_dot _ _ hfdot) hk₂
      · rw [if_neg hs]
        refine List.Nodup.append (by simp [Entries.keys]) ihrest ?_
        intro k hk₁ hk₂
        simp only [Entries.keys, List.map_cons, List.map_nil, List.mem_singleton] at hk₁
        subst hk₁
        exact hdisj _ (keyRoot_label _ hfdot) hk₂
termination_by sizeOf fs
decreasing_by
  all_goals simp_wf
  all_goals first
    | omega
    | exact hlt

/-- C15: when, at every record level reached through exported record fields, the
resolved labels of the exported sibling fields are pairwise distinct and contain
no ".", distinct emitted fields have distinct dotted keys; so the result has
exactly the emitted fields as entries (as many entries as there are accessible
non-record fields), and every accessible non-record field is found under its
own dotted path with its own emitted value. -/
theorem C15_distinct_keys (ord : RangeOrder) (fs : List Field) (h : labelsOK fs = true) :
    (emittedFields fs).keys.Nodup
      ∧ (LogStructFields ord (.struct fs)).entries.Perm (emittedFields fs)
      ∧ (LogStructFields ord (.struct fs)).len = (emittedFields fs).length
      ∧ (∀ (path : List String) (v : Value), FieldAt fs path v → v.Kind ≠ .Struct →
          (LogStructFields ord (.struct fs)).entries.get? (dotted path) = some v.emitted) := by
  have nd := nodup_keys_emittedFields fs h
  have hget : ∀ k, (LogStructFields ord (.struct fs)).entries.get? k
      = (emittedFields fs).get? k := by
    intro k
    rw [get?_LogStructFields_struct, lastWrite_eq_get? nd]
  have p : (LogStructFields ord (.struct fs)).entries.Perm (emittedFields fs) :=
    Entries.perm_of_get?_eq (nodup_keys_LogStructFields _ _) nd hget
  refine ⟨nd, p, List.Perm.length_eq p, ?_⟩
  intro path v hat hk
  rw [hget]
  exact Entries.get?_eq_some_of_mem nd (mem_emittedFields_of_fieldAt hat hk)

theorem C15_distinct_keys_witness :
    labelsOK exampleNested = true
      ∧ (emittedFields exampleNested).keys = ["Inner.X", "p"]
      ∧ (LogStructFields RangeOrder.reversed (.struct exampleNested)).len
          = (emittedFields exampleNested).length :=
  ⟨by decide, by decide,
    (C15_distinct_keys RangeOrder.reversed exampleNested (by decide)).2.2.1⟩

/-! ## The checked program -/

theorem checked_examples :
    LogStructFieldsChecked 2 RangeOrder.insertion (.struct exampleThreeLevels)
        = .ok (.made [("A.B.C", .prim (.int 1))])
      ∧ LogStructFieldsChecked 1 RangeOrder.insertion (.struct exampleThreeLevels)
        = .error .depthExceeded
      ∧ nestingDepth (.struct exampleThreeLevels) = 2
      ∧ LogStructFieldsChecked 1 RangeOrder.insertion (.struct exampleHidden)
        = .ok (.made [("N", .prim (.int 1))])
      ∧ LogStructFieldsChecked 0 RangeOrder.insertion (.struct exampleTargets)
        = .ok (LogStructFields RangeOrder.insertion (.struct exampleTargets)) := by
  refine ⟨rfl, rfl, rfl, rfl, rfl⟩

theorem GoMap.assign_made (es : Entries) (k : String) (v : Value) :
    (GoMap.made es).assign k v = .ok (.made (es.set k v)) :=
  rfl

theorem foldlM_assign (label : String) (l : Entries) (result : Entries) :
    l.foldlM (fun r kv => GoMap.assign r (label ++ "." ++ kv.1) kv.2) (GoMap.made result)
      = Except.ok (GoMap.made (applyWrites (underLabel label l) result)) := by
  induction l generalizing result with
  | nil => rfl
  | cons e rest ih =>
    rw [List.foldlM_cons, GoMap.assign_made]
    exact ih _

/-- One iteration of the checked loop on field `i`: no check fails, and what is
done is what the unchecked loop does, with the recursive call as the only step
that can stop the run. -/
theorem fieldsLoopChecked_step (recur : RangeOrder → Value → Except Failure GoMap)
    (ord : RangeOrder) (fs : List Field) (f : Field) (left i : Nat)
    (hget : fs[i]? = some f) (result : Entries) :
    fieldsLoopChecked recur ord (fs.map (fun f => (f.name, f.tag)))
        (.of (.struct fs) false) (left + 1) i (.made result)
      = if f.exported = false then
          fieldsLoopChecked recur ord (fs.map (fun f => (f.name, f.tag)))
            (.of (.struct fs) false) left (i + 1) (.made result)
        else if f.value.Kind = .Struct then
          recur (ord.sub i) f.value >>= fun nested =>
            fieldsLoopChecked recur ord (fs.map (fun f => (f.name, f.tag)))
              (.of (.struct fs) false) left (i + 1)
              (.made (applyWrites (underLabel f.label (ord.order [i] nested.entries)) result))
        else
          fieldsLoopChecked recur ord (fs.map (fun f => (f.name, f.tag)))
            (.of (.struct fs) false) left (i + 1)
            (.made (result.set f.label f.value.emitted)) := by
  have htyp : typeField (fs.map (fun f => (f.name, f.tag))) i = .ok (f.name, f.tag) := by
    simp [typeField, List.getElem?_map, hget]
  have hfield : Reflected.Field (.of (.struct fs) false) i
      = .ok (.of f.value (false || !f.exported)) := by
    simp [Reflected.Field, hget]
  rw [fieldsLoopChecked]
  simp only [htyp, hfield, bind, Except.bind, Reflected.CanInterface]
  obtain ⟨name, tag, exported, value⟩ := f
  cases exported
  · simp [Field.exported]
  · cases value with
    | nil =>
      simp [Field.exported, Field.value, Field.label, Field.name, Field.tag, Reflected.Kind,
        Value.Kind, Reflected.Interface, GoMap.assign_made, Value.emitted]
    | prim p =>
      cases p <;>
      simp [Field.exported, Field.value, Field.label, Field.name, Field.tag, Reflected.Kind,
        Value.Kind, Reflected.Interface, GoMap.assign_made, Value.emitted]
    | nilPtr =>
      simp [Field.exported, Field.value, Field.label, Field.name, Field.tag, Reflected.Kind,
        Value.Kind, Reflected.IsNil, GoMap.assign_made, Value.emitted, Value.IsNil]
    | ptr t =>
      simp [Field.exported, Field.value, Field.label, Field.name, Field.tag, Reflected.Kind,
        Value.Kind, Reflected.IsNil, Reflected.Elem, Reflected.Interface, GoMap.assign,
        Value.emitted, Value.IsNil, Value.Elem]
    | struct sub =>
      simp [Field.exported, Field.value, Field.label, Field.name, Field.tag, Reflected.Kind,
        Value.Kind, Reflected.Interface, foldlM_assign, Value.Interface]
    | iface d =>
      simp [Field.exported, Field.value, Field.label, Field.name, Field.tag, Reflected.Kind,
        Value.Kind, Reflected.Interface, GoMap.assign_made, Value.emitted]
    | selfSlice =>
      simp [Field.exported, Field.value, Field.label, Field.name, Field.tag, Reflected.Kind,
        Value.Kind, Reflected.Interface, GoMap.assign_made, Value.emitted]

theorem bind_ok {α β : Type} (a : α) (f : α → Except Failure β) :
    (Except.ok a >>= f) = f a :=
  rfl

theorem bind_error {α β : Type} (e : Failure) (f : α → Except Failure β) :
    ((Except.error e : Except Failure α) >>= f) = Except.error e :=
  rfl

/-- The checked loop returns what the unchecked loop returns, provided the
recursive calls do; the only other outcome, possible when `allow` holds, is that
a recursive call exceeded the depth bound. No check of the loop itself fails. -/
theorem fieldsLoopChecked_spec (allow : Prop)
    (recur : RangeOrder → Value → Except Failure GoMap) (ord : RangeOrder)
    (fs : List Field)
    (hrec : ∀ f ∈ fs, f.exported = true → f.value.Kind = .Struct → ∀ o,
      recur o f.value = .ok (LogStructFields o f.value)
        ∨ (allow ∧ recur o f.value = .error .depthExceeded))
    (left i : Nat) (hlen : i + left = fs.length) (result : Entries) :
    fieldsLoopChecked recur ord (fs.map (fun f => (f.name, f.tag)))
        (.of (.struct fs) false) left i (.made result)
      = .ok (.made (fieldsLoop ord i (fs.drop i) result))
    ∨ (allow ∧ fieldsLoopChecked recur ord (fs.map (fun f => (f.name, f.tag)))
        (.of (.struct fs) false) left i (.made result) = .error .depthExceeded) := by
  induction left generalizing i result with
  | zero =>
    left
    have : fs.drop i = [] := List.drop_eq_nil_of_le (by omega)
    rw [this, fieldsLoop_nil, fieldsLoopChecked]
  | succ left ih =>
    have hi : i < fs.length := by omega
    have hget : fs[i]? = some fs[i] := List.getElem?_eq_getElem hi
    have hdrop : fs.drop i = fs[i] :: fs.drop (i + 1) := List.drop_eq_getElem_cons hi
    have hmem : fs[i] ∈ fs := List.getElem_mem hi
    rw [fieldsLoopChecked_step recur ord fs fs[i] left i hget, hdrop, fieldsLoop_cons]
    by_cases he : fs[i].exported = false
    · rw [if_pos he, if_pos he]
      exact ih (i + 1) (by omega) result
    · rw [if_neg he, if_neg he]
      by_cases hs : fs[i].value.Kind = .Struct
      · rw [if_pos hs, if_pos hs]
        rcases hrec fs[i] hmem (by simpa using he) hs (ord.sub i) with hok | ⟨ha, herr⟩
        · have hent : (LogStructFields (ord.sub i) fs[i].value).entries
              = fieldsLoop (ord.sub i) 0 fs[i].value.fields [] := by
            conv_lhs => rw [Value.eq_struct_of_kind hs, LogStructFields_struct]
            rfl
          rw [hok, bind_ok, hent]
          exact ih (i + 1) (by omega) _
        · right
          rw [herr, bind_error]
          exact ⟨ha, rfl⟩
      · rw [if_neg hs, if_neg hs]
        exact ih (i + 1) (by omega) _

theorem LogStructFieldsBody_spec (allow : Prop)
    (recur : RangeOrder → Value → Except Failure GoMap) (ord : RangeOrder) (v : Value)
    (hrec : ∀ f ∈ (if v.Kind = .Ptr then v.Elem else v).fields, f.exported = true →
      f.value.Kind = .Struct → ∀ o,
      recur o f.value = .ok (LogStructFields o f.value)
        ∨ (allow ∧ recur o f.value = .error .depthExceeded)) :
    LogStructFieldsBody recur ord v = .ok (LogStructFields ord v)
      ∨ (allow ∧ LogStructFieldsBody recur ord v = .error .depthExceeded) := by
  have main : ∀ fs : List Field,
      (∀ f ∈ fs, f.exported = true → f.value.Kind = .Struct → ∀ o,
        recur o f.value = .ok (LogStructFields o f.value)
          ∨ (allow ∧ recur o f.value = .error .depthExceeded)) →
      (fieldsLoopChecked recur ord (fs.map (fun f => (f.name, f.tag)))
          (.of (.struct fs) false) fs.length 0 (.made [])
        = .ok (.made (fieldsLoop ord 0 fs []))
      ∨ (allow ∧ fieldsLoopChecked recur ord (fs.map (fun f => (f.name, f.tag)))
          (.of (.struct fs) false) fs.length 0 (.made []) = .error .depthExceeded)) := by
    intro fs h
    have := fieldsLoopChecked_spec allow recur ord fs h fs.length 0 (by omega) []
    simpa using this
  cases v with
  | nil => left; rfl
  | prim p => left; cases p <;> rfl
  | nilPtr => left; rfl
  | iface d => left; rfl
  | selfSlice => left; rfl
  | struct fs =>
    have := main fs (by simpa [Value.Kind, Value.fields] using hrec)
    simpa [LogStructFieldsBody, ValueOf, Reflected.Kind, Value.Kind, Reflected.Type,
      Reflected.NumField, Value.fields, bind, Except.bind, pure, Except.pure,
      LogStructFields_struct] using this
  | ptr t =>
    cases t with
    | nil => left; rfl
    | prim p => left; cases p <;> rfl
    | nilPtr => left; rfl
    | ptr u => left; rfl
    | iface d => left; rfl
    | selfSlice => left; rfl
    | struct fs =>
      have := main fs (by simpa [Value.Kind, Value.fields, Value.Elem] using hrec)
      simpa [LogStructFieldsBody, ValueOf, Reflected.Kind, Value.Kind, Reflected.Type,
        Reflected.NumField, Value.fields, bind, Except.bind, pure, Except.pure,
        LogStructFields_ptr_struct, Reflected.Elem] using this

theorem fieldsDepth_cons (f : Field) (rest : List Field) :
    fieldsDepth (f :: rest) = max (valueDepth f.value) (fieldsDepth rest) := by
  obtain ⟨name, tag, exported, value⟩ := f
  rw [fieldsDepth]
  rfl

theorem valueDepth_of_kind {v : Value} (h : v.Kind = .Struct) :
    valueDepth v = fieldsDepth v.fields + 1 := by
  have hv := Value.eq_struct_of_kind h
  conv_lhs => rw [hv]
  rw [valueDepth]

theorem valueDepth_le_of_mem {fs : List Field} {f : Field} (hm : f ∈ fs) :
    valueDepth f.value ≤ fieldsDepth fs := by
  induction fs with
  | nil => simp at hm
  | cons g rest ih =>
    rw [fieldsDepth_cons]
    rcases List.mem_cons.1 hm with e | hm'
    · subst e
      exact Nat.le_max_left _ _
    · exact Nat.le_trans (ih hm') (Nat.le_max_right _ _)

theorem nestingDepth_of_kind {v : Value} (h : v.Kind = .Struct) :
    nestingDepth v = fieldsDepth v.fields := by
  unfold nestingDepth
  rw [if_neg (by rw [h]; decide)]

/-- A nested record is strictly less deep than the record that holds it. -/
theorem nestingDepth_lt_of_mem {fs : List Field} {f : Field} (hm : f ∈ fs)
    (hs : f.value.Kind = .Struct) : nestingDepth f.value < fieldsDepth fs := by
  have h₁ := valueDepth_le_of_mem hm
  rw [valueDepth_of_kind hs] at h₁
  rw [nestingDepth_of_kind hs]
  omega

/-- With a depth bound of at least the nesting depth of the input the checked
run returns the result of the unchecked function. -/
theorem LogStructFieldsChecked_eq_ok (depth : Nat) (ord : RangeOrder) (v : Value)
    (h : nestingDepth v ≤ depth) :
    LogStructFieldsChecked depth ord v = .ok (LogStructFields ord v) := by
  induction depth generalizing ord v with
  | zero =>
    rw [LogStructFieldsChecked]
    have := LogStructFieldsBody_spec False (fun _ _ => .error .depthExceeded) ord v
      (by
        intro f hm _ hs o
        have := nestingDepth_lt_of_mem hm hs
        unfold nestingDepth at h
        omega)
    simpa using this
  | succ depth ih =>
    rw [LogStructFieldsChecked]
    have := LogStructFieldsBody_spec False (LogStructFieldsChecked depth) ord v
      (by
        intro f hm _ hs o
        left
        apply ih
        have := nestingDepth_lt_of_mem hm hs
        unfold nestingDepth at h
        omega)
    simpa using this

/-- Whatever the depth bound, the checked run returns the result of the
unchecked function or stops because the bound was exceeded: no check fails. -/
theorem LogStructFieldsChecked_ok_or_depth (depth : Nat) (ord : RangeOrder) (v : Value) :
    LogStructFieldsChecked depth ord v = .ok (LogStructFields ord v)
      ∨ LogStructFieldsChecked depth ord v = .error .depthExceeded := by
  induction depth generalizing ord v with
  | zero =>
    rw [LogStructFieldsChecked]
    have := LogStructFieldsBody_spec True (fun _ _ => .error .depthExceeded) ord v
      (fun _ _ _ _ _ => Or.inr ⟨trivial, rfl⟩)
    simpa using this
  | succ depth ih =>
    rw [LogStructFieldsChecked]
    have := LogStructFieldsBody_spec True (LogStructFieldsChecked depth) ord v
      (by
        intro f _ _ _ o
        rcases ih o f.value with h | h
        · exact Or.inl h
        · exact Or.inr ⟨trivial, h⟩)
    simpa using this

theorem foldlM_sprintv_ok (sprintv : Value → Except Failure String) (f : Value → String)
    (l : Entries) (sb : String) (h : ∀ kv ∈ l, sprintv kv.2 = .ok (f kv.2)) :
    l.foldlM (fun sb kv => do
        let text ← sprintv kv.2
        pure (sb ++ kv.1 ++ ": " ++ text ++ "\n")) sb
      = .ok (l.foldl (fun sb kv => sb ++ kv.1 ++ ": " ++ f kv.2 ++ "\n") sb) := by
  induction l generalizing sb with
  | nil => rfl
  | cons e rest ih =>
    rw [List.foldlM_cons, h e (List.mem_cons_self _ _), bind_ok]
    exact ih _ (fun kv hkv => h kv (List.mem_cons_of_mem _ hkv))

theorem foldlM_sprintv_error (sprintv : Value → Except Failure String) (l : Entries)
    (sb : String) (e : Failure)
    (h : l.foldlM (fun sb kv => do
        let text ← sprintv kv.2
        pure (sb ++ kv.1 ++ ": " ++ text ++ "\n")) sb = .error e) :
    ∃ kv ∈ l, sprintv kv.2 = .error e := by
  induction l generalizing sb with
  | nil => cases h
  | cons x rest ih =>
    rw [List.foldlM_cons] at h
    cases hx : sprintv x.2 with
    | error e' =>
      rw [hx, bind_error, bind_error] at h
      cases h
      exact ⟨x, List.mem_cons_self _ _, hx⟩
    | ok text =>
      rw [hx, bind_ok] at h
      obtain ⟨kv, hkv, hf⟩ := ih _ h
      exact ⟨kv, List.mem_cons_of_mem _ hkv, hf⟩

/-- The checked `LogStruct` fails only when the checked `LogStructFields` does
or when the formatter fails on a value of the mapping. -/
theorem LogStructChecked_error (depth : Nat) (sprintv : Value → Except Failure String)
    (ord : RangeOrder) (v : Value) (e : Failure)
    (h : LogStructChecked depth sprintv ord v = .error e) :
    e = .depthExceeded
      ∨ ∃ kv ∈ (LogStructFields ord v).entries, sprintv kv.2 = .error e := by
  unfold LogStructChecked at h
  rcases LogStructFieldsChecked_ok_or_depth depth ord v with hf | hf
  · rw [hf, bind_ok] at h
    obtain ⟨kv, hkv, hs⟩ := foldlM_sprintv_error sprintv _ _ e h
    exact Or.inr ⟨kv, (List.Perm.mem_iff (ord.perm _ _)).1 hkv, hs⟩
  · rw [hf, bind_error] at h
    cases h
    exact Or.inl rfl

/-- C11 (as worded) fails for LogStruct: on the record exampleSelfSlice, whose
exported field S holds the slice that contains itself, LogStructFields returns
the mapping of "S" to that slice, and LogStruct then formats the slice, which
never ends: the run dies with a stack overflow and no string is returned. -/
theorem C11_counterexample :
    LogStructFieldsChecked 0 RangeOrder.insertion (.struct exampleSelfSlice)
        = .ok (.made [("S", .selfSlice)])
      ∧ LogStructChecked 0 exampleSprintvChecked RangeOrder.insertion
          (.struct exampleSelfSlice) = .error .stackOverflow :=
  ⟨rfl, rfl⟩

/-- C11 (amended): LogStructFields never fails. In the run where every
reflective step is checked against its precondition (Interface only when
CanInterface holds, IsNil and Elem only on a pointer, Type, NumField and Field
only on a struct, assignment only to a made map), no panic is raised on any
input and for any bound on the recursion depth, and with the nesting depth of
the input as bound the run returns the mapping of the unchecked function.
LogStruct returns its string whenever `fmt.Sprintf` returns for the values of
the mapping, and fails only when `fmt.Sprintf` fails on one of them. -/
theorem C11_never_fails (depth : Nat) (ord : RangeOrder) (v : Value) :
    (∀ call, LogStructFieldsChecked depth ord v ≠ .error (.panic call))
      ∧ LogStructFieldsChecked (nestingDepth v) ord v = .ok (LogStructFields ord v)
      ∧ (∀ (sprintv : Value → Except Failure String) (f : Value → String),
          (∀ kv ∈ (LogStructFields ord v).entries, sprintv kv.2 = .ok (f kv.2)) →
          LogStructChecked (nestingDepth v) sprintv ord v = .ok (LogStruct f ord v))
      ∧ (∀ (sprintv : Value → Except Failure String) (e : Failure),
          LogStructChecked (nestingDepth v) sprintv ord v = .error e →
          ∃ kv ∈ (LogStructFields ord v).entries, sprintv kv.2 = .error e)
      ∧ (∀ (sprintv : Value → Except Failure String) (e : Failure),
          LogStructChecked depth sprintv ord v = .error e →
          e = .depthExceeded
            ∨ ∃ kv ∈ (LogStructFields ord v).entries, sprintv kv.2 = .error e) := by
  have hok := LogStructFieldsChecked_eq_ok (nestingDepth v) ord v (Nat.le_refl _)
  refine ⟨?_, hok, ?_, ?_, fun sprintv e h => LogStructChecked_error depth sprintv ord v e h⟩
  · intro call hc
    rcases LogStructFieldsChecked_ok_or_depth depth ord v with h | h <;>
      rw [h] at hc <;> cases hc
  · intro sprintv f hf
    unfold LogStructChecked LogStruct
    rw [hok, bind_ok]
    exact foldlM_sprintv_ok sprintv f _ _
      (fun kv hkv => hf kv ((List.Perm.mem_iff (ord.perm _ _)).1 hkv))
  · intro sprintv e h
    unfold LogStructChecked at h
    rw [hok, bind_ok] at h
    obtain ⟨kv, hkv, hs⟩ := foldlM_sprintv_error sprintv _ _ e h
    exact ⟨kv, (List.Perm.mem_iff (ord.perm _ _)).1 hkv, hs⟩

theorem C11_never_fails_witness :
    (∀ kv ∈ (LogStructFields RangeOrder.reversed (.struct examplePrimitive)).entries,
        exampleSprintvChecked kv.2 = .ok (exampleSprintv kv.2))
      ∧ LogStructChecked (nestingDepth (.struct examplePrimitive)) exampleSprintvChecked
          RangeOrder.reversed (.struct examplePrimitive)
        = .ok (LogStruct exampleSprintv RangeOrder.reversed (.struct examplePrimitive))
      ∧ LogStruct exampleSprintv RangeOrder.reversed (.struct examplePrimitive)
        = "Name: a\nid: 7\n" :=
  have hall : ∀ kv ∈ (LogStructFields RangeOrder.reversed (.struct examplePrimitive)).entries,
      exampleSprintvChecked kv.2 = .ok (exampleSprintv kv.2) := by
    intro kv hkv
    have h : (LogStructFields RangeOrder.reversed (.struct examplePrimitive)).entries
        = [("id", .prim (.int 7)), ("Name", .prim (.str "a"))] := by decide
    rw [h] at hkv
    simp only [List.mem_cons, List.mem_singleton, List.not_mem_nil, or_false] at hkv
    rcases hkv with rfl | rfl <;> rfl
  ⟨hall,
    (C11_never_fails 0 RangeOrder.reversed (.struct examplePrimitive)).2.2.1
      exampleSprintvChecked exampleSprintv hall,
    by decide⟩

theorem sizeOf_value_lt_of_mem {fs : List Field} {f : Field} (hm : f ∈ fs) :
    sizeOf f.value < sizeOf (Value.struct fs) := by
  have h₁ : sizeOf f < sizeOf fs := List.sizeOf_lt_of_mem hm
  have h₂ : sizeOf f.value < sizeOf f := by
    obtain ⟨name, tag, exported, value⟩ := f
    simp only [Field.value, Field.mk.sizeOf_spec]
    omega
  simp only [Value.struct.sizeOf_spec]
  omega

/-- C12: LogStructFields terminates on every input record, with a recursion
depth of at most the nesting depth of the record. The checked run that allows
at most `depth` nested recursive calls returns the result as soon as `depth` is
at least the nesting depth of the input; the recursive call is made only for a
field whose value is a record, which is a strictly smaller value of strictly
smaller nesting depth, and a field holding a reference adds no level, whatever
the reference points to. -/
theorem C12_terminates (depth : Nat) (ord : RangeOrder) (fs : List Field)
    (h : nestingDepth (.struct fs) ≤ depth) :
    LogStructFieldsChecked depth ord (.struct fs) = .ok (LogStructFields ord (.struct fs))
      ∧ LogStructFieldsChecked depth ord (.ptr (.struct fs))
          = .ok (LogStructFields ord (.ptr (.struct fs)))
      ∧ (∀ f ∈ fs, f.value.Kind = .Struct →
          sizeOf f.value < sizeOf (Value.struct fs)
            ∧ nestingDepth f.value < nestingDepth (.struct fs))
      ∧ (∀ f ∈ fs, f.value.Kind = .Ptr → valueDepth f.value = 0) := by
  refine ⟨LogStructFieldsChecked_eq_ok depth ord _ h,
    LogStructFieldsChecked_eq_ok depth ord _ h, ?_, ?_⟩
  · intro f hm hs
    exact ⟨sizeOf_value_lt_of_mem hm, nestingDepth_lt_of_mem hm hs⟩
  · intro f _ hp
    cases hv : f.value with
    | struct sub => rw [hv] at hp; cases hp
    | _ => rfl

theorem C12_terminates_witness :
    nestingDepth (.struct exampleThreeLevels) ≤ 2
      ∧ LogStructFieldsChecked 2 RangeOrder.insertion (.struct exampleThreeLevels)
          = .ok (.made [("A.B.C", .prim (.int 1))])
      ∧ nestingDepth (.struct exampleTargets) ≤ 0
      ∧ LogStructFieldsChecked 0 RangeOrder.insertion (.struct exampleTargets)
          = .ok (.made [("RR", .ptr (.prim (.int 5))),
              ("RS", .struct [⟨"X", "", true, .prim (.int 1)⟩])]) :=
  ⟨by decide,
    (C12_terminates 2 RangeOrder.insertion exampleThreeLevels (by decide)).1,
    by decide,
    (C12_terminates 0 RangeOrder.insertion exampleTargets (by decide)).1⟩

end Structlog
